import Mathlib

/-!
Verification of the havINI single-file INI library (havINI.hpp) against its
natural-language specification.

The development shallowly embeds the relevant parts of havINI.hpp:

* strings are `List Char`, each `Char` holding one byte of the C++ `std::string`
  working representation (the parser operates byte-wise on UTF-8 data);
* raw file contents are `List Nat` (byte values);
* C++ exceptions (`throw std::runtime_error`, `std::stol` failures,
  `std::wstring_convert` range errors) become `Except String`;
* the build is the default (case-insensitive) configuration, i.e.
  `HAVINI_CASE_SENSITIVE` is not defined, with the default `"C"` locale, whose
  `tolower` / `isspace` / `isxdigit` act on ASCII only.

Every definition is translated from havINI.hpp; source line numbers are given
in the doc comments.
-/

namespace HavINI

/-- `std::ctype<char>::tolower` of the default `"C"` locale: ASCII lowercasing. -/
def toLowerChar (c : Char) : Char :=
  if 'A' ≤ c ∧ c ≤ 'Z' then Char.ofNat (c.toNat + 32) else c

/-- `havUtils::ToLower` (havINI.hpp 185-190): lowercase every character. -/
def ToLower (v : List Char) : List Char := v.map toLowerChar

/-- `std::isspace` in the `"C"` locale. -/
def isSpaceC (c : Char) : Bool :=
  c = ' ' ∨ c = '\t' ∨ c = '\n' ∨ c = '\x0b' ∨ c = '\x0c' ∨ c = '\r'

/-- `std::isxdigit` in the `"C"` locale. -/
def isXDigitC (c : Char) : Bool :=
  ('0' ≤ c ∧ c ≤ '9') ∨ ('a' ≤ c ∧ c ≤ 'f') ∨ ('A' ≤ c ∧ c ≤ 'F')

/-- `std::isdigit` in the `"C"` locale. -/
def isDigitC (c : Char) : Bool := '0' ≤ c ∧ c ≤ '9'

/-- Value of one hexadecimal digit. -/
def hexDigitValue (c : Char) : Nat :=
  if '0' ≤ c ∧ c ≤ '9' then c.toNat - 48
  else if 'a' ≤ c ∧ c ≤ 'f' then c.toNat - 87
  else if 'A' ≤ c ∧ c ≤ 'F' then c.toNat - 55
  else 0

/-- `havUtils::StartsWith` (havINI.hpp 137-140). -/
def StartsWithL (sv p : List Char) : Bool := sv.take p.length = p

/-- `havUtils::EndsWith` (havINI.hpp 142-145). -/
def EndsWithL (sv suffix : List Char) : Bool :=
  suffix.length ≤ sv.length ∧ sv.drop (sv.length - suffix.length) = suffix

/-- Helper for `havSplit`: accumulates the token currently being read
(`cur = none` while between tokens). -/
def havSplitGo (delim : List Char) (cur : Option (List Char)) :
    List Char → List (List Char)
  | [] =>
    match cur with
    | some t => [t]
    | none => []
  | c :: rest =>
    if delim.contains c then
      match cur with
      | some t => t :: havSplitGo delim none rest
      | none => havSplitGo delim none rest
    else
      havSplitGo delim (some ((cur.getD []) ++ [c])) rest

/-- `havUtils::Split` (havINI.hpp 147-166): splits on any character of
`delim`, returning the maximal non-delimiter runs; if no token was produced
the whole input is returned as the single token. -/
def havSplit (value : List Char) (delim : List Char) : List (List Char) :=
  let result := havSplitGo delim none value
  if result = [] then [value] else result

/-- `std::string::find(c, start)` (first index `≥ 0` of `c`). -/
def strFind (c : Char) : List Char → Option Nat
  | [] => none
  | x :: rest => if x = c then some 0 else (strFind c rest).map (· + 1)

/-- `std::string::find(c, start)` searching from index `start` (inclusive). -/
def strFindFrom (c : Char) (l : List Char) (start : Nat) : Option Nat :=
  (strFind c (l.drop start)).map (· + start)

/-- `std::stol` (as used on array keys): optional leading whitespace, optional
sign, then a non-empty maximal run of decimal digits; `none` models the
`std::invalid_argument` exception when no digits are found.  (The
`std::out_of_range` overflow of `long` would need a 19-digit key and is not
modelled.) -/
def stolModel (s : List Char) : Option Int :=
  let s1 := s.dropWhile isSpaceC
  let signAndRest : Bool × List Char :=
    match s1 with
    | '-' :: t => (true, t)
    | '+' :: t => (false, t)
    | _ => (false, s1)
  let ds := signAndRest.2.takeWhile isDigitC
  if ds = [] then none
  else
    let v : Int := ds.foldl (fun a c => a * 10 + (((c.toNat : Int)) - 48)) 0
    some (if signAndRest.1 then -v else v)

/-- `unsigned int arrayKey = std::stol(...)` (havINI.hpp 767): the `long`
result converted to `unsigned int`, i.e. reduced modulo `2^32`. -/
def stolU (s : List Char) : Option Nat :=
  (stolModel s).map (fun z => (z % (2 ^ 32 : Int)).toNat)

/-- `havINIBOMType` (havINI.hpp 109-117). -/
inductive havINIBOMType : Type where
  | None
  | UTF8
  | UTF16LE
  | UTF16BE
  | UTF32LE
  | UTF32BE
deriving DecidableEq, Repr

/-- `havINIDataType` (havINI.hpp 119-125). -/
inductive havINIDataType : Type where
  | Empty
  | Comment
  | Value
  | Array
deriving DecidableEq, Repr

/-- An element of `havINIData::mArray`.  The sub-entries stored in an array
are always created by `havINIData::SetArrayEntry` (havINI.hpp 446-480) as
`Value`-typed `havINIData` whose own array is empty, so they are modelled by
this flat structure carrying exactly the fields that are read or written:
key, value, quoting flag and inline comment. -/
structure havINIArrayEntry : Type where
  key : List Char
  value : List Char
  addQuotes : Bool
  inlineComment : Option (List Char)
deriving DecidableEq, Repr

/-- `havINIData` (havINI.hpp 195-807): one entry of a section.  The cached
`mArrayIndex` field is not modelled: it is only ever written (by
`GetArrayIndex`) and never read. -/
structure havINIData : Type where
  type : havINIDataType
  key : List Char
  value : List Char
  inlineComment : Option (List Char)
  addQuotes : Bool
  hasArrayIndex : Bool
  array : List havINIArrayEntry
deriving DecidableEq, Repr

/-- `havINISection` (havINI.hpp 809-1337). -/
structure havINISection : Type where
  sectionName : List Char
  inlineComment : Option (List Char)
  keyValuePairs : List havINIData
  commentLineCount : Nat
  emptyLineCount : Nat
deriving DecidableEq, Repr

/-- `havINIData::SetInlineComment` / `havINISection::SetInlineComment`
(havINI.hpp 746-756, 957-967): the empty string clears the comment. -/
def icOpt (inlineComment : List Char) : Option (List Char) :=
  if inlineComment = [] then none else some inlineComment

/-- Update the first entry whose key is `key` (the C++ code always obtains the
entry by `std::find_if` and mutates it through the iterator). -/
def updateFirstPair (pairs : List havINIData) (key : List Char)
    (f : havINIData → havINIData) : List havINIData :=
  match pairs with
  | [] => []
  | d :: rest =>
    if d.key = key then f d :: rest else d :: updateFirstPair rest key f

/-- Update the first array sub-entry whose key is `key`. -/
def updateFirstArrayEntry (arr : List havINIArrayEntry) (key : List Char)
    (f : havINIArrayEntry → havINIArrayEntry) : List havINIArrayEntry :=
  match arr with
  | [] => []
  | a :: rest =>
    if a.key = key then f a :: rest else a :: updateFirstArrayEntry rest key f

/-- Loop body of `havINIData::GetArrayIndex` (havINI.hpp 761-778):
`arrayIndex` starts at `0`; for each entry, `arrayKey = std::stol(key)`
(converted to `unsigned int`), and if `arrayIndex ≤ arrayKey` then
`arrayIndex = arrayKey + 1` (in `unsigned int` arithmetic). -/
def GetArrayIndexGo (acc : Nat) : List havINIArrayEntry → Except String Nat
  | [] => .ok acc
  | e :: rest =>
    match stolU e.key with
    | none => .error ("stol: invalid argument")
    | some arrayKey =>
      GetArrayIndexGo (if acc ≤ arrayKey then (arrayKey + 1) % 2 ^ 32 else acc) rest

/-- `havINIData::GetArrayIndex` (havINI.hpp 761-778).  `.error` models the
`std::invalid_argument` thrown by `std::stol` on a non-numeric key. -/
def GetArrayIndex (arr : List havINIArrayEntry) : Except String Nat :=
  GetArrayIndexGo 0 arr

/-- `havINIData::SetArrayEntry` (havINI.hpp 446-480).  An empty `key` is
replaced by `to_string(GetArrayIndex())`; the key is lowercased; a missing
sub-entry is appended (its inline comment and quote flag are set only when
`setInlineComment` is true, havINI.hpp 467-472); an existing sub-entry gets
value, inline comment and quote flag overwritten. -/
def dataSetArrayEntry (d : havINIData) (key : List Char) (value : List Char)
    (addQuotes setInlineComment : Bool) (inlineComment : List Char) :
    Except String havINIData :=
  (if key = [] then (GetArrayIndex d.array).map (fun n => (Nat.repr n).data)
   else .ok key).map (fun key0 =>
    let k := ToLower key0
    if d.array.any (fun a => a.key = k) then
      { d with array := updateFirstArrayEntry d.array k (fun a =>
          { a with value := value, inlineComment := icOpt inlineComment,
                   addQuotes := addQuotes }) }
    else
      let arr1 := d.array ++ [⟨k, value, false, none⟩]
      if setInlineComment then
        { d with array := updateFirstArrayEntry arr1 k (fun a =>
            { a with inlineComment := icOpt inlineComment, addQuotes := addQuotes }) }
      else
        { d with array := arr1 })

/-- `havINISection::SetKeyValuePair` (havINI.hpp 1032-1053): lowercases the
key; an existing entry gets value and quote flag overwritten in place, a
missing key is appended as a new `Value` entry. -/
def sectionSetKeyValuePair (sec : havINISection) (key : List Char)
    (value : List Char) (addQuotes : Bool) : havINISection :=
  let k := ToLower key
  if sec.keyValuePairs.any (fun d => d.key = k) then
    { sec with keyValuePairs := updateFirstPair sec.keyValuePairs k (fun d =>
        { d with value := value, addQuotes := addQuotes }) }
  else
    { sec with keyValuePairs :=
        sec.keyValuePairs ++ [⟨.Value, k, value, none, addQuotes, false, []⟩] }

/-- Effectful variant of `updateFirstPair` for mutations that can throw. -/
def updateFirstPairE (pairs : List havINIData) (key : List Char)
    (f : havINIData → Except String havINIData) :
    Except String (List havINIData) :=
  match pairs with
  | [] => .ok []
  | d :: rest =>
    if d.key = key then (f d).map (· :: rest)
    else (updateFirstPairE rest key f).map (d :: ·)

/-- `havINISection::SetArrayEntry` (havINI.hpp 1055-1093).  Note the slip at
havINI.hpp 1079: the new array parent is created by
`emplace_back(mLocale, key, havINIDataType::Array, hasArrayIndex)`, whose
fourth constructor parameter is `addQuotes`, so the parent's `addQuotes`
field receives `hasArrayIndex` and its `hasArrayIndex` field keeps the
default `false`. -/
def sectionSetArrayEntry (sec : havINISection) (key : List Char)
    (value : List Char) (addQuotes setInlineComment : Bool)
    (inlineComment : List Char) (arrayIndex : List Char) (hasArrayIndex : Bool) :
    Except String havINISection :=
  let k := ToLower key
  let subKey := if hasArrayIndex then arrayIndex else []
  if sec.keyValuePairs.any (fun d => d.key = k) then
    (Except.map (fun pairs => { sec with keyValuePairs := pairs }))
      (updateFirstPairE sec.keyValuePairs k (fun d =>
        dataSetArrayEntry d subKey value addQuotes setInlineComment inlineComment))
  else
    let parent : havINIData := ⟨.Array, k, [], none, hasArrayIndex, false, []⟩
    (dataSetArrayEntry parent subKey value addQuotes setInlineComment
        inlineComment).map (fun parent' =>
      { sec with keyValuePairs := sec.keyValuePairs ++ [parent'] })

/-- `havINISection::SetEmptyLine` with position `End` (havINI.hpp 969-1030):
the key is lowercased; if an entry with this key already exists nothing is
inserted (the function returns `false`); otherwise an `Empty` entry is
inserted at the end.  The parser only ever calls this with position `End`
(havINI.hpp 2130, 2136), so only that case is embedded. -/
def sectionSetEmptyLineEnd (sec : havINISection) (key : List Char) :
    havINISection :=
  let k := ToLower key
  if sec.keyValuePairs.any (fun d => d.key = k) then sec
  else
    { sec with keyValuePairs :=
        sec.keyValuePairs ++ [⟨.Empty, k, [], none, false, false, []⟩] }

/-- `havINISection::SetComment` with position `End` (havINI.hpp 1100-1161):
the key is lowercased; if an entry with this key already exists nothing is
inserted; otherwise a `Comment` entry carrying the text is inserted at the
end.  The parser only ever calls this with position `End` (havINI.hpp 2184,
2190). -/
def sectionSetCommentEnd (sec : havINISection) (key : List Char)
    (text : List Char) : havINISection :=
  let k := ToLower key
  if sec.keyValuePairs.any (fun d => d.key = k) then sec
  else
    { sec with keyValuePairs :=
        sec.keyValuePairs ++ [⟨.Comment, k, text, none, false, false, []⟩] }

/-- `havINISection::SetInlineComment` (havINI.hpp 957-967). -/
def sectionSetInlineComment (sec : havINISection) (inlineComment : List Char) :
    havINISection :=
  { sec with inlineComment := icOpt inlineComment }

/-- A freshly constructed `havINISection(name)` (havINI.hpp 812-822). -/
def newSection (name : List Char) : havINISection := ⟨name, none, [], 0, 0⟩

/-- `havINIStream::HasSection` (havINI.hpp 3411-3418): lowercases the queried
name and linearly searches the section list. -/
def streamHasSection (data : List havINISection) (name : List Char) : Bool :=
  data.any (fun sec => sec.sectionName = ToLower name)

/-- `havINIStream::GetSection` (havINI.hpp 3514-3521) followed by a mutation
through the returned iterator: the first section with the (lowercased) name
is replaced by `f` of itself. -/
def updateFirstSection (data : List havINISection) (name : List Char)
    (f : havINISection → havINISection) : List havINISection :=
  match data with
  | [] => []
  | s :: rest =>
    if s.sectionName = name then f s :: rest
    else s :: updateFirstSection rest name f

/-- Effectful variant of `updateFirstSection`. -/
def updateFirstSectionE (data : List havINISection) (name : List Char)
    (f : havINISection → Except String havINISection) :
    Except String (List havINISection) :=
  match data with
  | [] => .ok []
  | s :: rest =>
    if s.sectionName = name then (f s).map (· :: rest)
    else (updateFirstSectionE rest name f).map (s :: ·)

/-- The create-or-modify pattern used throughout `ParseFile` (e.g. havINI.hpp
2122-2137, 2176-2191, 2270-2283, 2636-2669): if `HasSection(name)` fails, a
fresh `havINISection(name)` is built, modified and pushed back; otherwise the
existing section (found via `GetSection(name)`, which lowercases `name`) is
modified in place. -/
def withSection (data : List havINISection) (name : List Char)
    (f : havINISection → havINISection) : List havINISection :=
  if streamHasSection data name then
    updateFirstSection data (ToLower name) f
  else
    data ++ [f (newSection name)]

/-- `withSection` for mutations that can throw. -/
def withSectionE (data : List havINISection) (name : List Char)
    (f : havINISection → Except String havINISection) :
    Except String (List havINISection) :=
  if streamHasSection data name then
    updateFirstSectionE data (ToLower name) f
  else
    (f (newSection name)).map (fun sec => data ++ [sec])

/-- `havINIStream::HasKey` (havINI.hpp 3394-3409): find the first section
with the lowercased name, then search its pairs for the lowercased key. -/
def streamHasKey (data : List havINISection) (sectionName keyName : List Char) :
    Bool :=
  match data.find? (fun sec => sec.sectionName = ToLower sectionName) with
  | some sec => sec.keyValuePairs.any (fun d => d.key = ToLower keyName)
  | none => false

/-- `havINIStream::GetValue` (havINI.hpp 3078-3103): the value of the first
matching pair of the first matching section, or `defaultValue`. -/
def streamGetValue (data : List havINISection) (sectionName keyName : List Char)
    (defaultValue : List Char) : List Char :=
  match data.find? (fun sec => sec.sectionName = ToLower sectionName) with
  | some sec =>
    match sec.keyValuePairs.find? (fun d => d.key = ToLower keyName) with
    | some d => d.value
    | none => defaultValue
  | none => defaultValue

/-- `havINIStream::SetValue` (havINI.hpp 3105-3148): lowercases section and
key names; overwrites value and quote flag of an existing entry, appends a
new pair to an existing section, or appends a whole new section.  Returns
the `bool` result paired with the new section list. -/
def streamSetValue (data : List havINISection) (sectionName keyName : List Char)
    (value : List Char) (addQuotes : Bool) : Bool × List havINISection :=
  let sn := ToLower sectionName
  let kn := ToLower keyName
  match data.find? (fun sec => sec.sectionName = sn) with
  | some sec =>
    if sec.keyValuePairs.any (fun d => d.key = kn) then
      (true, updateFirstSection data sn (fun sc =>
        { sc with keyValuePairs := updateFirstPair sc.keyValuePairs kn (fun d =>
            { d with value := value, addQuotes := addQuotes }) }))
    else
      (true, updateFirstSection data sn (fun sc =>
        sectionSetKeyValuePair sc kn value addQuotes))
  | none =>
    (true, data ++ [sectionSetKeyValuePair (newSection sn) kn value addQuotes])

/-- `havINIStream::CodePointToString` (havINI.hpp 1428-1457): UTF-8 encode
into a stack buffer that is then read as a null-terminated string, so code
point `0` and code points `≥ 0x110000` produce the empty string. -/
def CodePointToString (codePoint : Nat) : List Char :=
  if codePoint < 0x80 then
    if codePoint = 0 then [] else [Char.ofNat codePoint]
  else if codePoint < 0x800 then
    [Char.ofNat ((codePoint >>> 6) ||| 0xc0),
     Char.ofNat ((codePoint &&& 0x3f) ||| 0x80)]
  else if codePoint < 0x10000 then
    [Char.ofNat ((codePoint >>> 12) ||| 0xe0),
     Char.ofNat (((codePoint >>> 6) &&& 0x3f) ||| 0x80),
     Char.ofNat ((codePoint &&& 0x3f) ||| 0x80)]
  else if codePoint < 0x110000 then
    [Char.ofNat ((codePoint >>> 18) ||| 0xf0),
     Char.ofNat (((codePoint >>> 12) &&& 0x3f) ||| 0x80),
     Char.ofNat (((codePoint >>> 6) &&& 0x3f) ||| 0x80),
     Char.ofNat ((codePoint &&& 0x3f) ||| 0x80)]
  else []

/-- Numeric value of four hex digits, as computed by
`std::strtol(hexString, nullptr, 16)` on the collected 4-digit string. -/
def hexQuad (d1 d2 d3 d4 : Char) : Nat :=
  hexDigitValue d1 * 4096 + hexDigitValue d2 * 256 +
    hexDigitValue d3 * 16 + hexDigitValue d4

/-- Error text of the `std::runtime_error` at havINI.hpp 1893/1940. -/
def readBeyondMsg : String :=
  "Read beyond end of file, and found invalid unicode escape sequence!"

/-- Error text of the `std::runtime_error` at havINI.hpp 2023. -/
def invalidEscapeMsg : String := "Invalid escape character!"

/-- Error text of the `std::runtime_error` at havINI.hpp 1987. -/
def lowSurrogateMsg : String :=
  "Invalid code point for UTF-16 low surrogate pair!"

/-- Error text of the `std::runtime_error` at havINI.hpp 1974. -/
def lowSurrogateRangeMsg : String :=
  "Invalid code point range for UTF-16 low surrogate pair!"

/-- Marker for the unreachable fuel-exhaustion branch of the fuel-bounded
loops below.  Each loop iteration consumes at least one character of its
list argument, so starting with `length + 1` fuel this branch is never
taken. -/
def fuelMsg : String := "unreachable: loop fuel exhausted"

/-- Flush of the last partial line (havINI.hpp 2035-2040): a non-empty
remainder is terminated with LF and appended to the buffer. -/
def flushLine (line : List Char) (buffer : List (List Char)) :
    List (List Char) :=
  if line = [] then buffer else buffer ++ [line ++ ['\n']]

/-- The "Read INI file contents" loop of `havINIStream::ParseFile`
(havINI.hpp 1827-2040): in a single pass it resolves `\xHHHH` escape
sequences (including UTF-16 surrogate pairs) and splits the transcoded text
into LF-terminated logical lines.

Faithfulness notes:
* In the `'\r'` case the C++ code pre-increments `index` and then reads the
  lookahead from `fileContents[index + 1]`, i.e. **two** characters past the
  CR; both the "CRLF found" and the "CR found" branch append a single LF,
  flush the line, and resume two characters past the CR, so the character
  directly following a CR is always consumed.  A CR as the very last
  character is dropped.  (`std::string::operator[]` at position `size()`
  returns NUL, so the lookahead is well defined at the end.)
* A backslash followed by anything other than `x` throws
  "Invalid escape character!" (havINI.hpp 2022-2024); a trailing backslash is
  dropped (the bounds check at havINI.hpp 1872 breaks out of the switch).
* After a complete `\xHHHH`, a following `\x` begins a second escape whose
  four characters must be hex digits on pain of a surrogate-pair error; if
  the first code point is a high surrogate and the second a low surrogate
  they are combined, if the first is not a high surrogate the second escape
  is re-processed from its backslash (`index -= 6`, havINI.hpp 1979-1983).

The first argument is fuel bounding the number of iterations; every
iteration consumes at least one character, so with `length + 1` fuel (as in
`readContents`) the fuel branch is unreachable. -/
def readLoop : Nat → List Char → List Char → List (List Char) →
    Except String (List (List Char))
  | 0, _, _, _ => .error fuelMsg
  | _ + 1, [], line, buffer => .ok (flushLine line buffer)
  | fuel + 1, '\r' :: rest, line, buffer =>
    (match rest with
     | [] => .ok (flushLine line buffer)
     | _ :: rest' =>
       -- both branches of the CRLF lookahead behave identically
       if rest'.headD '\x00' = '\n' then
         readLoop fuel rest' [] (buffer ++ [line ++ ['\n']])
       else
         readLoop fuel rest' [] (buffer ++ [line ++ ['\n']]))
  | fuel + 1, '\n' :: rest, line, buffer =>
    readLoop fuel rest [] (buffer ++ [line ++ ['\n']])
  | fuel + 1, '\\' :: rest, line, buffer =>
    (match rest with
     | [] => .ok (flushLine line buffer)
     | c :: rest' =>
       if c = 'x' then
         match rest' with
         | [] => .error readBeyondMsg
         | d1 :: t1 =>
           if ¬ isXDigitC d1 then readLoop fuel rest' (line ++ ['x']) buffer
           else match t1 with
           | [] => .error readBeyondMsg
           | d2 :: t2 =>
             if ¬ isXDigitC d2 then readLoop fuel t1 (line ++ ['x', d1]) buffer
             else match t2 with
             | [] => .error readBeyondMsg
             | d3 :: t3 =>
               if ¬ isXDigitC d3 then readLoop fuel t2 (line ++ ['x', d1, d2]) buffer
               else match t3 with
               | [] => .error readBeyondMsg
               | d4 :: t4 =>
                 if ¬ isXDigitC d4 then
                   readLoop fuel t3 (line ++ ['x', d1, d2, d3]) buffer
                 else
                   let codePoint := hexQuad d1 d2 d3 d4
                   match t4 with
                   | '\\' :: 'x' :: t6 =>
                     (match t6 with
                      | [] => .error readBeyondMsg
                      | e1 :: u1 =>
                        if ¬ isXDigitC e1 then .error lowSurrogateMsg
                        else match u1 with
                        | [] => .error readBeyondMsg
                        | e2 :: u2 =>
                          if ¬ isXDigitC e2 then .error lowSurrogateMsg
                          else match u2 with
                          | [] => .error readBeyondMsg
                          | e3 :: u3 =>
                            if ¬ isXDigitC e3 then .error lowSurrogateMsg
                            else match u3 with
                            | [] => .error readBeyondMsg
                            | e4 :: u4 =>
                              if ¬ isXDigitC e4 then .error lowSurrogateMsg
                              else
                                if 0xd800 ≤ codePoint ∧ codePoint ≤ 0xdbff then
                                  let second := hexQuad e1 e2 e3 e4
                                  if 0xdc00 ≤ second ∧ second ≤ 0xdfff then
                                    readLoop fuel u4
                                      (line ++ CodePointToString
                                        (0x10000 + (codePoint - 0xd800) * 0x400 +
                                          (second - 0xdc00))) buffer
                                  else .error lowSurrogateRangeMsg
                                else
                                  -- index -= 6: reprocess from the 2nd backslash
                                  readLoop fuel t4
                                    (line ++ CodePointToString codePoint) buffer)
                   | _ =>
                     -- no second `\x` follows: reprocess from the next char
                     readLoop fuel t4 (line ++ CodePointToString codePoint) buffer
       else .error invalidEscapeMsg)
  | fuel + 1, ch :: rest, line, buffer =>
    readLoop fuel rest (line ++ [ch]) buffer

/-- `readLoop` started on the transcoded file contents with empty
accumulators and enough fuel: the line buffer produced by havINI.hpp
1822-2040. -/
def readContents (contents : List Char) : Except String (List (List Char)) :=
  readLoop (contents.length + 1) contents [] []

/-- A freshly constructed `havINISection(name)` with no pairs
(havINI.hpp 812-822). -/
def newHavSection (name : List Char) : havINISection := ⟨name, none, [], 0, 0⟩

/-- The state carried across lines by the "Parse INI file contents" loop of
`havINIStream::ParseFile` (havINI.hpp 2044-2064 declare the locals that
persist between iterations; `mData` is the stream's section list). -/
structure PState : Type where
  mData : List havINISection
  errorMessage : String
  sectionName : List Char
  keyName : List Char
  value : List Char
  inlineComment : List Char
  newSection : Bool
  newKey : Bool
  newValue : Bool
  hasInlineComment : Bool
  stringValue : Bool
  arrayIndex : List Char
  isArrayKey : Bool
  hasArrayIndex : Bool
deriving DecidableEq, Repr

/-- The parse state at loop entry: a fresh `havINIStream` (whose constructor
creates the `hi_global` section, havINI.hpp 1342-1349) together with the
initial values of the locals (havINI.hpp 2044-2064). -/
def initPState : PState where
  mData := [newHavSection ("hi_global".data)]
  errorMessage := ""
  sectionName := ("hi_global".data)
  keyName := []
  value := []
  inlineComment := []
  newSection := false
  newKey := true
  newValue := false
  hasInlineComment := false
  stringValue := false
  arrayIndex := []
  isArrayKey := false
  hasArrayIndex := false

/-- The "Remove whitespaces" loop of `ParseFile` (havINI.hpp 2088-2111):
`commentSection` becomes (and stays) true at the first `;` or `#` anywhere in
the line; `valueSection` toggles at every `"` or `'`; a character is dropped
exactly when it is whitespace and both flags are false *after* updating them
on that character. -/
def stripLineGo (cs vs : Bool) : List Char → List Char
  | [] => []
  | c :: rest =>
    let cs' := cs || (c == ';') || (c == '#')
    let vs' := if c = '"' ∨ c = '\'' then !vs else vs
    if cs' = false ∧ vs' = false then
      if isSpaceC c then stripLineGo cs' vs' rest else c :: stripLineGo cs' vs' rest
    else c :: stripLineGo cs' vs' rest

/-- Whitespace stripping of one buffered line (havINI.hpp 2081-2111). -/
def stripLine (line : List Char) : List Char := stripLineGo false false line

/-- The empty-line mutation (havINI.hpp 2129-2130 / 2135-2136): bump the
section's empty-line counter and insert `hi_el_<n>` at the end. -/
def emptyLineF (sec : havINISection) : havINISection :=
  let c := sec.emptyLineCount + 1
  sectionSetEmptyLineEnd { sec with emptyLineCount := c }
    (("hi_el_".data) ++ (Nat.repr c).data)

/-- The "Empty line" branch of the parse loop (havINI.hpp 2114-2140),
creating the current section if it does not exist yet. -/
def emptyLineStep (st : PState) : PState :=
  { st with mData := withSection st.mData st.sectionName emptyLineF }

/-- The comment mutation (havINI.hpp 2183-2184 / 2189-2190): bump the
section's comment counter and insert `hi_c_<n>` at the end. -/
def commentF (text : List Char) (sec : havINISection) : havINISection :=
  let c := sec.commentLineCount + 1
  sectionSetCommentEnd { sec with commentLineCount := c }
    (("hi_c_".data) ++ (Nat.repr c).data) text

/-- The "Comment" branch of the parse loop (havINI.hpp 2150-2193): drop the
marker, one optional following space and the trailing LF, then store the
comment, creating the current section if needed. -/
def commentStep (st : PState) (line : List Char) : PState :=
  let l1 := line.tail
  let l2 := if l1.headD '\x00' = ' ' then l1.tail else l1
  let l3 := if l2.getLast? = some '\n' then l2.dropLast else l2
  { st with mData := withSection st.mData st.sectionName (commentF l3) }

/-- Scan of a section-header line after its leading `[` (the `while` loop at
havINI.hpp 2209-2293).  Returns the accumulated name, the final value of the
`newSection` flag, the error text appended (if any) and the inline comment
(if the `;`/`#` path at havINI.hpp 2240-2288 was taken). -/
def sectionScan (ns : Bool) (acc : List Char) :
    List Char → (List Char × Bool × String × Option (List Char))
  | [] => (acc, ns, "", none)
  | c :: rest =>
    if c = '\n' then (acc, ns, "", none)
    else if c = '[' then
      (acc, ns, "New section started within section tag!\n", none)
    else if c = ' ' then sectionScan ns acc rest
    else if c = ']' then sectionScan false acc rest
    else if c = ';' ∨ c = '#' then
      if ns then (acc, ns, "Found comment tag within section tag!\n", none)
      else
        let cmt := rest.takeWhile (fun x => x ≠ '\n')
        let cmt := if cmt.headD '\x00' = ' ' then cmt.tail else cmt
        (acc, ns, "", some cmt)
    else sectionScan ns (acc ++ [c]) rest

/-- The "Section" branch of the parse loop (havINI.hpp 2197-2311): resets the
per-line flags, scans the header, registers the inline comment (creating the
section) when one is present, reports `Section end tag was not found!` when
no `]` was seen, and switches the current section name (lowercased). -/
def sectionStep (st : PState) (line : List Char) : PState :=
  let scan := sectionScan true [] line.tail
  let nm := scan.1
  let nsFinal := scan.2.1
  let errAfterScan := st.errorMessage ++ scan.2.2.1
  let data' :=
    match scan.2.2.2 with
    | some cmt =>
      withSection st.mData (ToLower nm) (fun sec => sectionSetInlineComment sec cmt)
    | none => st.mData
  let err2 :=
    if nsFinal then errAfterScan ++ "Section end tag was not found!\n"
    else errAfterScan
  { st with mData := data', sectionName := ToLower nm, errorMessage := err2,
            newSection := nsFinal, newKey := (err2 = ""), newValue := false,
            stringValue := false }

/-- Error text appended when neither `=` nor `:` occurs in a key/value line
(havINI.hpp 2322, 2454). -/
def noDelimiterMsg : String := "No \x22=\x22 or \x22:\x22 sign found!\n"

/-- Error text appended when the key scan never reached the delimiter
(havINI.hpp 2428-2430). -/
def keyEndMsg (endC : Char) : String :=
  "Key end tag (\x22" ++ endC.toString ++ "\x22 sign) was not found!\n"

/-- Selection of the key/value delimiter (havINI.hpp 2317-2349): when both
`=` and `:` occur, the one with the smaller `std::string::find` position
wins; `'\x00'` when neither occurs (`endCharacter` keeps its initializer). -/
def chooseEndCharacter (line : List Char) : Char :=
  match strFind '=' line, strFind ':' line with
  | some f1, some f2 => if f1 > f2 then ':' else '='
  | some _, none => '='
  | none, some _ => ':'
  | none, none => '\x00'

/-- Position at which value parsing resumes (havINI.hpp 2449-2479): one past
the delimiter with the smaller `find` position. -/
def valueStartIndex (line : List Char) : Option Nat :=
  match strFind '=' line, strFind ':' line with
  | some f1, some f2 => some ((if f1 > f2 then f2 else f1) + 1)
  | some f1, none => some (f1 + 1)
  | none, some f2 => some (f2 + 1)
  | none, none => none

/-- The key-scanning `while` loop (havINI.hpp 2372-2424).  Arguments: the
`newKey` flag, the accumulated key and the remaining line.  Returns the
accumulated key name, the final `newKey` flag and the appended error text.
(The `[]` case is unreachable in context: the loop stops at `endC`, which is
known to occur in the line.) -/
def keyScan (isArr : Bool) (endC : Char) :
    Bool → List Char → List Char → (List Char × Bool × String)
  | nk, acc, [] => (acc, nk, "")
  | nk, acc, c :: rest =>
    if c = endC then (acc, nk, "")
    else if c = ' ' then
      keyScan isArr endC (if rest.headD '\x00' = endC then false else nk) acc rest
    else if isArr = false ∧ c = '[' then
      (acc, nk, "Start section tag within key tag!\n")
    else if isArr = false ∧ c = ']' then
      (acc, nk, "Close section tag within key tag!\n")
    else if isArr = true ∧ c = '[' then (acc, false, "")
    else if c = ';' ∨ c = '#' then
      (acc, nk, "Found comment tag within key tag!\n")
    else
      keyScan isArr endC (if rest.headD '\x00' = endC then false else nk)
        (acc ++ [c]) rest

/-- The key stage of a key/value line (havINI.hpp 2313-2443).  Decides the
delimiter, classifies plain/array keys from `Split(line, delimiter)[0]`,
scans the key and, on success, lowercases it and switches to value parsing. -/
def keyStep (st : PState) (line : List Char) : PState :=
  let fEq := strFind '=' line
  let fCo := strFind ':' line
  let err1 :=
    if fEq = none ∧ fCo = none then st.errorMessage ++ noDelimiterMsg
    else st.errorMessage
  let endC := chooseEndCharacter line
  if err1 ≠ "" then { st with keyName := [], errorMessage := err1 }
  else
    let fullKey := (havSplit line [endC]).headD []
    let arrInfo : Bool × Bool × List Char :=
      if EndsWithL fullKey ("[]".data) then (true, false, st.arrayIndex)
      else if StartsWithL fullKey ("[".data) = false ∧
          EndsWithL fullKey ("]".data) ∧ fullKey.contains '[' then
        (true, true, ((havSplit fullKey ['[']).getD 1 []).dropLast)
      else (false, false, st.arrayIndex)
    let scanRes := keyScan arrInfo.1 endC true [] line
    let err2 := err1 ++ scanRes.2.2
    let err3 := if scanRes.2.1 then err2 ++ keyEndMsg endC else err2
    if err3 = "" then
      { st with keyName := ToLower scanRes.1, newKey := false, newValue := true,
                errorMessage := err3, isArrayKey := arrInfo.1,
                hasArrayIndex := arrInfo.2.1, arrayIndex := arrInfo.2.2 }
    else
      { st with keyName := scanRes.1, newKey := scanRes.2.1,
                errorMessage := err3, isArrayKey := arrInfo.1,
                hasArrayIndex := arrInfo.2.1, arrayIndex := arrInfo.2.2 }

/-- The quote-counting loop at havINI.hpp 2481-2488: starting the search at
index 1, alternately look for the next `"` and then (strictly after it) the
next `'`; each completed `"`-then-`'` pair increments the count. -/
def countQuoteGo : Bool → List Char → Nat
  | _, [] => 0
  | seekingSingle, c :: rest =>
    if seekingSingle then
      if c = '\'' then 1 + countQuoteGo false rest else countQuoteGo true rest
    else
      if c = '"' then countQuoteGo true rest else countQuoteGo false rest

/-- `allQuoteCharacters` (havINI.hpp 2481-2488). -/
def countQuotePairs (line : List Char) : Nat := countQuoteGo false (line.drop 1)

/-- Result of the value-scanning `while` loop (havINI.hpp 2496-2618): the
final values of the locals it updates and the appended error text. -/
structure ValueScanResult : Type where
  value : List Char
  addQuotes : Bool
  stringValue : Bool
  newValue : Bool
  hasInlineComment : Bool
  inlineComment : List Char
  errAppend : String
deriving DecidableEq, Repr

/-- The value-scanning `while` loop (havINI.hpp 2496-2618).  Parameters of
the recursion: `stringValue`, `currentQuoteCharacter`, `newValue`,
`addQuotes`, the accumulated value, `hasInlineComment`, the accumulated
inline comment, and the remaining line (starting one past the delimiter).
The `[]` case is unreachable in context: every line ends with LF. -/
def valueScan (allQ : Nat) :
    Bool → Nat → Bool → Bool → List Char → Bool → List Char → List Char →
    ValueScanResult
  | sv, _, nv, aq, acc, hic, ic, [] => ⟨acc, aq, sv, nv, hic, ic, ""⟩
  | sv, cq, nv, aq, acc, hic, ic, c :: rest =>
    if c = '\n' then ⟨acc, aq, sv, nv, hic, ic, ""⟩
    else if c = ' ' ∧ sv = false then
      valueScan allQ sv cq (if rest.headD '\x00' = '\n' then false else nv)
        aq acc hic ic rest
    else if c = '[' then
      ⟨acc, aq, sv, nv, hic, ic, "Start section tag within value tag!\n"⟩
    else if c = ']' then
      ⟨acc, aq, sv, nv, hic, ic, "Close section tag within value tag!\n"⟩
    else if allQ > 2 then
      if (c = '"' ∨ c = '\'') ∧ sv = false ∧ cq = 0 then
        valueScan allQ true (cq + 1) nv aq acc hic ic rest
      else
        let cq1 := if (c = '"' ∨ c = '\'') ∧ sv = true ∧ cq < allQ then cq + 1 else cq
        if (c = '"' ∨ c = '\'') ∧ sv = true ∧ cq1 = allQ then
          valueScan allQ false (cq1 + 1) nv true acc hic ic rest
        else if sv = false ∧ (c = ';' ∨ c = '#') then
          let cmt := rest.takeWhile (fun x => x ≠ '\n')
          let ic1 := ic ++ cmt
          let ic2 := if ic1.headD '\x00' = ' ' then ic1.tail else ic1
          ⟨acc, aq, sv, false, true, ic2, ""⟩
        else
          let acc' := acc ++ [c]
          if rest.headD '\x00' = '\n' ∧ sv = true then
            ⟨acc', aq, sv, nv, hic, ic, "String end tag not defined!\n"⟩
          else
            valueScan allQ sv cq1 (if rest.headD '\x00' = '\n' then false else nv)
              aq acc' hic ic rest
    else
      if (c = '"' ∨ c = '\'') ∧ sv = false then
        valueScan allQ true cq nv aq acc hic ic rest
      else if (c = '"' ∨ c = '\'') ∧ sv = true then
        valueScan allQ false cq nv true acc hic ic rest
      else if sv = false ∧ (c = ';' ∨ c = '#') then
        let cmt := rest.takeWhile (fun x => x ≠ '\n')
        let ic1 := ic ++ cmt
        let ic2 := if ic1.headD '\x00' = ' ' then ic1.tail else ic1
        ⟨acc, aq, sv, false, true, ic2, ""⟩
      else
        let acc' := acc ++ [c]
        if rest.headD '\x00' = '\n' ∧ sv = true then
          ⟨acc', aq, sv, nv, hic, ic, "String end tag not defined!\n"⟩
        else
          valueScan allQ sv cq (if rest.headD '\x00' = '\n' then false else nv)
            aq acc' hic ic rest

/-- `SetKeyValuePair` followed by `SetInlineComment` through
`GetKeyValuePair`, as done on a successful plain key/value line
(havINI.hpp 2650-2652, 2665-2667). -/
def insertPlainPair (sec : havINISection) (key value : List Char)
    (addQuotes : Bool) (newInlineComment : List Char) : havINISection :=
  let sec1 := sectionSetKeyValuePair sec key value addQuotes
  let pairs2 := updateFirstPair sec1.keyValuePairs (ToLower key)
    (fun d => { d with inlineComment := icOpt newInlineComment })
  { sec1 with keyValuePairs := pairs2 }

/-- The value stage of a key/value line (havINI.hpp 2445-2677): find the
resume position, count quotes, scan the value and, on success, insert the
pair or array element (creating the section if needed) and reset the
inline-comment accumulators.  The `Except` models the exceptions that
`SetArrayEntry` can throw via `std::stol`. -/
def valueStep (st : PState) (line : List Char) : Except String PState :=
  let fEq := strFind '=' line
  let fCo := strFind ':' line
  let err1 :=
    if fEq = none ∧ fCo = none then st.errorMessage ++ noDelimiterMsg
    else st.errorMessage
  let ciStart := (valueStartIndex line).getD 0
  let allQ := countQuotePairs line
  if err1 ≠ "" then .ok { st with value := [], errorMessage := err1 }
  else
    let r := valueScan allQ st.stringValue 0 st.newValue false []
      st.hasInlineComment st.inlineComment (line.drop ciStart)
    let err2 := err1 ++ r.errAppend
    let err3 :=
      if r.newValue ∧ r.stringValue then
        err2 ++ "Value end tag (New line) was not found!\n"
      else err2
    if err3 = "" then
      let newInlineComment := if r.hasInlineComment then r.inlineComment else []
      if st.isArrayKey then
        (withSectionE st.mData st.sectionName (fun sec =>
          sectionSetArrayEntry sec st.keyName r.value r.addQuotes
            r.hasInlineComment newInlineComment st.arrayIndex
            st.hasArrayIndex)).map (fun data =>
          { st with mData := data, value := r.value,
                    stringValue := r.stringValue, newValue := false,
                    hasInlineComment := false, inlineComment := [],
                    newKey := true, errorMessage := err3 })
      else
        .ok { st with
          mData := withSection st.mData st.sectionName (fun sec =>
            insertPlainPair sec st.keyName r.value r.addQuotes newInlineComment),
          value := r.value, stringValue := r.stringValue, newValue := false,
          hasInlineComment := false, inlineComment := [], newKey := true,
          errorMessage := err3 }
    else
      .ok { st with value := r.value, stringValue := r.stringValue,
                    newValue := r.newValue, hasInlineComment := r.hasInlineComment,
                    inlineComment := r.inlineComment, errorMessage := err3 }

/-- Processing of one buffered line by the parse loop (havINI.hpp 2078-2677):
strip whitespace, then dispatch to the empty-line / comment / section /
key-value handling.  The value stage runs exactly when the (persisted)
`newValue` flag is set after the key stage. -/
def parseLine (st : PState) (lineIn : List Char) : Except String PState :=
  let tmp := stripLine lineIn
  if tmp = [] then .ok (emptyLineStep st)
  else
    let line := if tmp.getLast? ≠ some '\n' then tmp ++ ['\n'] else tmp
    if line.headD '\x00' = ';' ∨ line.headD '\x00' = '#' then
      .ok (commentStep st line)
    else if line.headD '\x00' = '[' then .ok (sectionStep st line)
    else
      let st1 := if st.newKey then keyStep st line else st
      if st1.newValue then valueStep st1 line else .ok st1

/-- The parse loop over the buffered lines (havINI.hpp 2067-2678): at the top
of each iteration a pending error message is printed, cleared, and the loop
breaks (havINI.hpp 2069-2076). -/
def parseLines (st : PState) : List (List Char) → Except String PState
  | [] => .ok st
  | l :: ls =>
    if st.errorMessage ≠ "" then .ok { st with errorMessage := "" }
    else
      match parseLine st l with
      | .error e => .error e
      | .ok st' => parseLines st' ls

/-- The epilogue of `ParseFile` (havINI.hpp 2680-2695): clear a pending error
message (after printing it) and register the current section if it was never
created (a trailing header with no entries). -/
def finishParse (st : PState) : PState :=
  let st1 := { st with errorMessage := "" }
  if streamHasSection st1.mData st1.sectionName then st1
  else { st1 with mData := st1.mData ++ [newHavSection st1.sectionName] }

/-- The whole per-line phase of `ParseFile` on a given line buffer. -/
def runParse (lines : List (List Char)) : Except String PState :=
  (parseLines initPState lines).map finishParse

/-- A clean run of the parse loop: every line is processed with an empty
error message on entry and without exceptions.  `parseLinesStrict st ls =
some st'` says the loop, started at `st`, really processes *all* of `ls` and
reaches `st'`. -/
def parseLinesStrict (st : PState) : List (List Char) → Option PState
  | [] => some st
  | l :: ls =>
    if st.errorMessage ≠ "" then none
    else
      match parseLine st l with
      | .error _ => none
      | .ok st' => parseLinesStrict st' ls

/-- The BOM / encoding detection of `ParseFile` (havINI.hpp 1641-1701) on the
first four bytes: first the five BOM patterns in precedence order (setting
`bytesToSkip`), then, when none matched, the zero-byte heuristic
(havINI.hpp 1679-1701), which assigns only the type and leaves `bytesToSkip`
at `0`.  Returns `(bomType, bytesToSkip)`. -/
def detectBOMType (bytes : List Nat) : havINIBOMType × Nat :=
  let b0 := bytes.getD 0 0
  let b1 := bytes.getD 1 0
  let b2 := bytes.getD 2 0
  let b3 := bytes.getD 3 0
  if b0 = 0xff ∧ b1 = 0xfe ∧ b2 = 0x00 ∧ b3 = 0x00 then (.UTF32LE, 4)
  else if b0 = 0x00 ∧ b1 = 0x00 ∧ b2 = 0xfe ∧ b3 = 0xff then (.UTF32BE, 4)
  else if b0 = 0xff ∧ b1 = 0xfe then (.UTF16LE, 2)
  else if b0 = 0xfe ∧ b1 = 0xff then (.UTF16BE, 2)
  else if b0 = 0xef ∧ b1 = 0xbb ∧ b2 = 0xbf then (.UTF8, 3)
  else if b0 ≠ 0x00 ∧ b1 = 0x00 ∧ b2 = 0x00 ∧ b3 = 0x00 then (.UTF32LE, 0)
  else if b0 = 0x00 ∧ b1 = 0x00 ∧ b2 = 0x00 ∧ b3 ≠ 0x00 then (.UTF32BE, 0)
  else if b0 ≠ 0x00 ∧ b1 = 0x00 ∧ b2 ≠ 0x00 ∧ b3 = 0x00 then (.UTF16LE, 0)
  else if b0 = 0x00 ∧ b1 ≠ 0x00 ∧ b2 = 0x00 ∧ b3 ≠ 0x00 then (.UTF16BE, 0)
  else (.None, 0)

/-- `fread` of `char16_t` items on a little-endian host (havINI.hpp
1759-1771): consecutive byte pairs assembled low byte first; a trailing odd
byte is not a complete item and is dropped. -/
def chunk16LE : List Nat → List Nat
  | b0 :: b1 :: rest => (b0 + 256 * b1) :: chunk16LE rest
  | _ => []

/-- `fread` of `char32_t` items on a little-endian host (havINI.hpp
1776-1788); a trailing incomplete quadruple is dropped. -/
def chunk32LE : List Nat → List Nat
  | b0 :: b1 :: b2 :: b3 :: rest =>
    (b0 + 256 * b1 + 65536 * b2 + 16777216 * b3) :: chunk32LE rest
  | _ => []

/-- The 16-bit byte swap at havINI.hpp 1801. -/
def swap16 (u : Nat) : Nat := ((u &&& 0x00ff) <<< 8) ||| ((u &&& 0xff00) >>> 8)

/-- The 32-bit byte swap at havINI.hpp 1814-1817. -/
def swap32 (u : Nat) : Nat :=
  ((u &&& 0x000000ff) <<< 24) ||| ((u &&& 0x0000ff00) <<< 8) |||
    ((u &&& 0x00ff0000) >>> 8) ||| ((u &&& 0xff000000) >>> 24)

/-- Error text modelling the `std::range_error` thrown by
`std::wstring_convert` on invalid input. -/
def badConversionMsg : String := "wstring_convert: bad conversion"

/-- UTF-8 encoding of one Unicode scalar value (the byte output of
`std::wstring_convert<...>::to_bytes` for one code point). -/
def utf8EncodeCp (cp : Nat) : List Char :=
  if cp < 0x80 then [Char.ofNat cp]
  else if cp < 0x800 then
    [Char.ofNat (0xc0 ||| (cp >>> 6)), Char.ofNat (0x80 ||| (cp &&& 0x3f))]
  else if cp < 0x10000 then
    [Char.ofNat (0xe0 ||| (cp >>> 12)), Char.ofNat (0x80 ||| ((cp >>> 6) &&& 0x3f)),
     Char.ofNat (0x80 ||| (cp &&& 0x3f))]
  else
    [Char.ofNat (0xf0 ||| (cp >>> 18)), Char.ofNat (0x80 ||| ((cp >>> 12) &&& 0x3f)),
     Char.ofNat (0x80 ||| ((cp >>> 6) &&& 0x3f)), Char.ofNat (0x80 ||| (cp &&& 0x3f))]

/-- `std::wstring_convert<codecvt<char16_t, char, ...>>::to_bytes`
(havINI.hpp 1794, 1803): UTF-16 to UTF-8, pairing surrogates; invalid
sequences (lone or misordered surrogates) throw a range error. -/
def utf16ToUtf8 : List Nat → Except String (List Char)
  | [] => .ok []
  | [u] =>
    if u < 0xd800 ∨ 0xdfff < u then .ok (utf8EncodeCp u)
    else .error badConversionMsg
  | u :: v :: rest =>
    if u < 0xd800 ∨ 0xdfff < u then
      (utf16ToUtf8 (v :: rest)).map (fun r => utf8EncodeCp u ++ r)
    else if u ≤ 0xdbff then
      if 0xdc00 ≤ v ∧ v ≤ 0xdfff then
        (utf16ToUtf8 rest).map (fun r =>
          utf8EncodeCp (0x10000 + (u - 0xd800) * 0x400 + (v - 0xdc00)) ++ r)
      else .error badConversionMsg
    else .error badConversionMsg

/-- `std::wstring_convert<codecvt<char32_t, char, ...>>::to_bytes`
(havINI.hpp 1807, 1819): UTF-32 to UTF-8; code points beyond U+10FFFF or in
the surrogate range throw a range error. -/
def utf32ToUtf8 : List Nat → Except String (List Char)
  | [] => .ok []
  | u :: rest =>
    if u < 0x110000 ∧ (u < 0xd800 ∨ 0xdfff < u) then
      (utf32ToUtf8 rest).map (fun r => utf8EncodeCp u ++ r)
    else .error badConversionMsg

/-- `havINIStream::ParseFile` (havINI.hpp 1594-2698) on a byte buffer (the
file contents; opening the file is the host's concern).  Returns the `bool`
result paired with the resulting section list; `.error` models an escaped
C++ exception.  An empty file and a file smaller than 6 bytes return `false`
(havINI.hpp 1614-1626) with the stream still in its constructed state; after
BOM detection the contents are transcoded to UTF-8
(skipping `bytesToSkip` bytes, havINI.hpp 1739-1820), split into lines with
inline escape resolution, parsed line by line, and `true` is returned
(havINI.hpp 2697).  `decodeBytes` is the BOM-detection/transcoding stage
(havINI.hpp 1630-1820). -/
def decodeBytes (bytes : List Nat) : Except String (List Char) :=
  let det := detectBOMType bytes
  match det.1 with
  | .None => .ok ((bytes.drop det.2).map Char.ofNat)
  | .UTF8 => .ok ((bytes.drop det.2).map Char.ofNat)
  | .UTF16LE => utf16ToUtf8 ((chunk16LE bytes).drop (det.2 / 2))
  | .UTF16BE => utf16ToUtf8 (((chunk16LE bytes).drop (det.2 / 2)).map swap16)
  | .UTF32LE => utf32ToUtf8 ((chunk32LE bytes).drop (det.2 / 4))
  | .UTF32BE => utf32ToUtf8 (((chunk32LE bytes).drop (det.2 / 4)).map swap32)

/-- The line-splitting and per-line phases of `ParseFile` on the transcoded
contents, ending in `return true` (havINI.hpp 1822-2697). -/
def parseFromContents (contents : List Char) :
    Except String (Bool × List havINISection) :=
  match readContents contents with
  | .error e => .error e
  | .ok buffer =>
    match parseLines initPState buffer with
    | .error e => .error e
    | .ok st => .ok (true, (finishParse st).mData)

def ParseFile (bytes : List Nat) : Except String (Bool × List havINISection) :=
  if bytes.length = 0 then .ok (false, initPState.mData)
  else if bytes.length < 6 then .ok (false, initPState.mData)
  else
    match decodeBytes bytes with
    | .error e => .error e
    | .ok contents => parseFromContents contents

/-- Error text of the `std::runtime_error` at havINI.hpp 1545/1552. -/
def badUtf8Msg : String := "Invalid UTF-8 sequence!"

/-- `std::hex << std::setw(4) << std::setfill('0')` output: lowercase hex
digits padded to a minimum width of 4. -/
def toHexMin4 (n : Nat) : List Char :=
  let ds := Nat.toDigits 16 n
  List.replicate (4 - ds.length) '0' ++ ds

/-- The hex-escape emission of `ConvertToEscapedString` (havINI.hpp
1558-1581): code points in `[0x10000, 0x10ffff]` are split into a UTF-16
surrogate pair written as two `\xHHHH` escapes, everything else is written as
a single `\xHHHH`. -/
def escHexCp (cp : Nat) : List Char :=
  if 0x10000 ≤ cp ∧ cp ≤ 0x10ffff then
    let cp' := cp - 0x10000
    ('\\' :: 'x' :: toHexMin4 (cp' / 0x400 + 0xd800)) ++
      ('\\' :: 'x' :: toHexMin4 (cp' % 0x400 + 0xdc00))
  else '\\' :: 'x' :: toHexMin4 cp

/-- `havINIStream::ConvertToEscapedString` (havINI.hpp 1459-1592): the eight
named escapes, literal output for printable ASCII, `\xHHHH` escapes for
ASCII below `0x1f` and for all multi-byte UTF-8 sequences (decoded back to a
code point first), and `Invalid UTF-8 sequence!` for malformed lead or
continuation bytes.  The first argument is iteration fuel (see `fuelMsg`);
`ConvertToEscapedString` supplies `length + 1`, which is never exhausted. -/
def ConvertToEscapedStringGo : Nat → List Char → Except String (List Char)
  | 0, _ => .error fuelMsg
  | _ + 1, [] => .ok []
  | fuel + 1, c :: rest =>
    if c = '"' then (ConvertToEscapedStringGo fuel rest).map (fun r => '\\' :: '"' :: r)
    else if c = '\\' then (ConvertToEscapedStringGo fuel rest).map (fun r => '\\' :: '\\' :: r)
    else if c = '\x08' then (ConvertToEscapedStringGo fuel rest).map (fun r => '\\' :: 'b' :: r)
    else if c = '\x0c' then (ConvertToEscapedStringGo fuel rest).map (fun r => '\\' :: 'f' :: r)
    else if c = '\n' then (ConvertToEscapedStringGo fuel rest).map (fun r => '\\' :: 'n' :: r)
    else if c = '\r' then (ConvertToEscapedStringGo fuel rest).map (fun r => '\\' :: 'r' :: r)
    else if c = '\t' then (ConvertToEscapedStringGo fuel rest).map (fun r => '\\' :: 't' :: r)
    else if c = '\x0b' then (ConvertToEscapedStringGo fuel rest).map (fun r => '\\' :: 'v' :: r)
    else
      let b := c.toNat
      if b &&& 0x80 = 0 then
        -- `value[index] < 0x1f` on a signed char: for bytes `≤ 0x7f` this is
        -- simply `b < 0x1f`
        if b < 0x1f then
          (ConvertToEscapedStringGo fuel rest).map (fun r => escHexCp (b &&& 0x7f) ++ r)
        else (ConvertToEscapedStringGo fuel rest).map (fun r => c :: r)
      else if b &&& 0xe0 = 0xc0 then
        match rest with
        | [] => .error badUtf8Msg
        | c1 :: rest2 =>
          if c1.toNat &&& 0xc0 ≠ 0x80 then .error badUtf8Msg
          else
            (ConvertToEscapedStringGo fuel rest2).map (fun r =>
              escHexCp (((b &&& 0x1f) <<< 6) ||| (c1.toNat &&& 0x3f)) ++ r)
      else if b &&& 0xf0 = 0xe0 then
        match rest with
        | [] => .error badUtf8Msg
        | c1 :: rest2 =>
          if c1.toNat &&& 0xc0 ≠ 0x80 then .error badUtf8Msg
          else
            match rest2 with
            | [] => .error badUtf8Msg
            | c2 :: rest3 =>
              if c2.toNat &&& 0xc0 ≠ 0x80 then .error badUtf8Msg
              else
                (ConvertToEscapedStringGo fuel rest3).map (fun r =>
                  escHexCp ((((b &&& 0x0f) <<< 6) ||| (c1.toNat &&& 0x3f)) <<< 6 |||
                    (c2.toNat &&& 0x3f)) ++ r)
      else if b &&& 0xf8 = 0xf0 then
        match rest with
        | [] => .error badUtf8Msg
        | c1 :: rest2 =>
          if c1.toNat &&& 0xc0 ≠ 0x80 then .error badUtf8Msg
          else
            match rest2 with
            | [] => .error badUtf8Msg
            | c2 :: rest3 =>
              if c2.toNat &&& 0xc0 ≠ 0x80 then .error badUtf8Msg
              else
                match rest3 with
                | [] => .error badUtf8Msg
                | c3 :: rest4 =>
                  if c3.toNat &&& 0xc0 ≠ 0x80 then .error badUtf8Msg
                  else
                    (ConvertToEscapedStringGo fuel rest4).map (fun r =>
                      escHexCp (((((b &&& 0x07) <<< 6) ||| (c1.toNat &&& 0x3f)) <<< 6 |||
                        (c2.toNat &&& 0x3f)) <<< 6 ||| (c3.toNat &&& 0x3f)) ++ r)
      else .error badUtf8Msg

/-- `havINIStream::ConvertToEscapedString` (havINI.hpp 1459-1592). -/
def ConvertToEscapedString (value : List Char) : Except String (List Char) :=
  ConvertToEscapedStringGo (value.length + 1) value

/-- The serializer's style settings with their defaults
(havINI.hpp 3564-3568). -/
structure havINIStyle : Type where
  mNewline : List Char
  mCommentCharacter : Char
  mValueQuoteCharacter : Char
  mKeyValuePairDelimiter : Char
deriving DecidableEq, Repr

/-- The default style: CRLF newline, `;` comments, `"` quotes, `=` delimiter
(havINI.hpp 3564-3568). -/
def defaultStyle : havINIStyle := ⟨['\r', '\n'], ';', '"', '='⟩

/-- The per-array-element rendering loop of `WriteFile` (havINI.hpp
2852-2917): one `key[idx]=value` / `key[]=value` line per sub-entry, each
prefixed with the pair's `newline`, each independently quoted and commented;
in formatted mode the very last element of the section gets a trailing
newline. -/
def writeArrayEntries (style : havINIStyle) (formatted : Bool)
    (parentKey : List Char) (hasIdx : Bool) (newline : List Char)
    (isLastPair : Bool) : List havINIArrayEntry → Except String (List Char)
  | [] => .ok []
  | a :: rest =>
    match ConvertToEscapedString a.value with
    | .error e => .error e
    | .ok v0 =>
      let v := if a.addQuotes then
          style.mValueQuoteCharacter :: v0 ++ [style.mValueQuoteCharacter]
        else v0
      match ConvertToEscapedString parentKey with
      | .error e => .error e
      | .ok kEsc =>
        let keyPart : Except String (List Char) :=
          if hasIdx then
            (ConvertToEscapedString a.key).map (fun ik => kEsc ++ '[' :: ik ++ [']'])
          else .ok (kEsc ++ ['[', ']'])
        match keyPart with
        | .error e => .error e
        | .ok kp =>
          let mid := (if formatted then [' '] else []) ++
            [style.mKeyValuePairDelimiter] ++ (if formatted then [' '] else [])
          let base := newline ++ kp ++ mid ++ v
          let withIc : Except String (List Char) :=
            match a.inlineComment with
            | some cmt =>
              (ConvertToEscapedString cmt).map (fun ce =>
                base ++ (if formatted then [' '] else []) ++
                  style.mCommentCharacter :: ' ' :: ce)
            | none => .ok base
          match withIc with
          | .error e => .error e
          | .ok line1 =>
            let line2 :=
              if formatted ∧ rest = [] ∧ isLastPair then line1 ++ style.mNewline
              else line1
            (writeArrayEntries style formatted parentKey hasIdx newline
              isLastPair rest).map (fun r => line2 ++ r)

/-- The per-entry rendering loop of `WriteFile` (havINI.hpp 2835-2964).
`headerEmpty` says whether the section-header string written before the loop
was empty (true exactly for the reserved global section); the first pair of
such a section gets no newline prefix. -/
def writePairs (style : havINIStyle) (formatted : Bool) (headerEmpty : Bool)
    (isFirst : Bool) : List havINIData → Except String (List Char)
  | [] => .ok []
  | d :: rest =>
    let newline := if headerEmpty ∧ isFirst then [] else style.mNewline
    if d.type = .Array then
      match writeArrayEntries style formatted d.key d.hasArrayIndex newline
          (rest = []) d.array with
      | .error e => .error e
      | .ok chunk => (writePairs style formatted headerEmpty false rest).map
          (fun r => chunk ++ r)
    else
      let base : Except String (List Char) :=
        if d.type = .Empty then .ok newline
        else if d.type = .Comment then
          (ConvertToEscapedString d.value).map (fun ce =>
            newline ++ style.mCommentCharacter :: ' ' :: ce)
        else
          match ConvertToEscapedString d.value with
          | .error e => .error e
          | .ok v0 =>
            let v := if d.addQuotes then
                style.mValueQuoteCharacter :: v0 ++ [style.mValueQuoteCharacter]
              else v0
            (ConvertToEscapedString d.key).map (fun kEsc =>
              newline ++ kEsc ++ (if formatted then [' '] else []) ++
                [style.mKeyValuePairDelimiter] ++
                (if formatted then [' '] else []) ++ v)
      match base with
      | .error e => .error e
      | .ok b0 =>
        let withIc : Except String (List Char) :=
          match d.inlineComment with
          | some cmt =>
            (ConvertToEscapedString cmt).map (fun ce =>
              b0 ++ (if formatted then [' '] else []) ++
                style.mCommentCharacter :: ' ' :: ce)
          | none => .ok b0
        match withIc with
        | .error e => .error e
        | .ok line1 =>
          let line2 :=
            if formatted ∧ rest = [] ∧ d.type ≠ .Empty then
              line1 ++ style.mNewline
            else line1
          (writePairs style formatted headerEmpty false rest).map
            (fun r => line2 ++ r)

/-- The per-section rendering loop of `WriteFile` (havINI.hpp 2771-2965) for
`bomType = None`: the reserved global section's name is never emitted as a
header; other sections get a `[name]` header, prefixed with a newline when
the section is not the first and output was already written (the
`ftell > 0` test, havINI.hpp 2780-2789), followed by the section's optional
inline comment. -/
def writeSections (style : havINIStyle) (formatted : Bool) (isFirst : Bool)
    (out : List Char) : List havINISection → Except String (List Char)
  | [] => .ok out
  | sec :: rest =>
    if sec.sectionName = ("HI_Global".data) ∨ sec.sectionName = ("hi_global".data) then
      match writePairs style formatted true true sec.keyValuePairs with
      | .error e => .error e
      | .ok body => writeSections style formatted false (out ++ body) rest
    else
      let nl := if isFirst then [] else style.mNewline
      let pre := if out.length > 0 then nl else []
      match ConvertToEscapedString sec.sectionName with
      | .error e => .error e
      | .ok nmEsc =>
        let inlinePart : Except String (List Char) :=
          match sec.inlineComment with
          | some cmt =>
            (ConvertToEscapedString cmt).map (fun ce =>
              (if formatted then [' '] else []) ++
                style.mCommentCharacter :: ' ' :: ce)
          | none => .ok []
        match inlinePart with
        | .error e => .error e
        | .ok ip =>
          let hdr := pre ++ '[' :: nmEsc ++ [']'] ++ ip ++
            (if formatted ∧ sec.keyValuePairs = [] then style.mNewline else [])
          match writePairs style formatted false true sec.keyValuePairs with
          | .error e => .error e
          | .ok body => writeSections style formatted false (out ++ hdr ++ body) rest

/-- `havINIStream::WriteFile` (havINI.hpp 2700-2968) with `bomType = None`:
the byte string written to the file (opening the file is the host's
concern; with no BOM, `WriteStringToFile` writes the accumulated strings
byte for byte, havINI.hpp 3525-3528). -/
def WriteFileString (doc : List havINISection) (style : havINIStyle)
    (formatted : Bool) : Except String (List Char) :=
  writeSections style formatted true [] doc

end HavINI

deriving instance DecidableEq for Except

namespace HavINI

/-- Modelled from the spec's words (§4.3 and claim C4), for comparison with
the implementation: split "into logical lines at each LF, each lone CR, and
each CRLF pair (a CRLF yields one line break, not two)", every produced line
"ends with exactly one LF", and no input character is lost. -/
def claimSplitGo (line : List Char) : List Char → List (List Char)
  | [] => if line = [] then [] else [line ++ ['\n']]
  | '\r' :: '\n' :: rest => (line ++ ['\n']) :: claimSplitGo [] rest
  | '\r' :: rest => (line ++ ['\n']) :: claimSplitGo [] rest
  | '\n' :: rest => (line ++ ['\n']) :: claimSplitGo [] rest
  | c :: rest => claimSplitGo (line ++ [c]) rest

/-- The claim's segmentation, started with an empty current line. -/
def claimSplit (s : List Char) : List (List Char) := claimSplitGo [] s

/-- The segmentation the code actually performs on escape-free input (the
amended claim C4): a break at each LF; at each CR the character directly
following the CR is consumed together with it (for CRLF that character is
the LF, otherwise it is a data character, which is lost); a CR as the very
last character is dropped without a break of its own. -/
def amendedSplitGo (line : List Char) : List Char → List (List Char)
  | [] => if line = [] then [] else [line ++ ['\n']]
  | ['\r'] => if line = [] then [] else [line ++ ['\n']]
  | '\r' :: _ :: rest => (line ++ ['\n']) :: amendedSplitGo [] rest
  | '\n' :: rest => (line ++ ['\n']) :: amendedSplitGo [] rest
  | c :: rest => amendedSplitGo (line ++ [c]) rest

/-- The amended segmentation, started with an empty current line. -/
def amendedSplit (s : List Char) : List (List Char) := amendedSplitGo [] s

/-- The document used in the round-trip counterexample: one section `s`
holding the single unquoted value `a\b` (one literal backslash) under
key `k`. -/
def c1Doc : List havINISection :=
  [newHavSection ("hi_global".data),
   ⟨("s".data), none, [⟨.Value, ("k".data), ("a\\b".data), none, false, false, []⟩],
    0, 0⟩]

/-- The bytes `Save` produces for `c1Doc` with the default style:
`[s]\r\nk=a\\b` with the backslash doubled by the escape encoder. -/
def c1Saved : List Char := ("[s]\r\nk=a\\\\b").data

/-- Lines of the well-formed part of the error-containment example:
a section `a` with one key. -/
def c2exPre : List (List Char) := [("[a]\n").data, ("k=1\n").data]

/-- The failing line of the error-containment example: an unterminated
quoted value. -/
def c2exLine : List Char := ("v=\"x\n").data

/-- Lines after the failing line of the error-containment example; they must
not be processed. -/
def c2exPost : List (List Char) := [("z=2\n").data]

/-- The parse state after the well-formed prefix of the error-containment
example. -/
def c2exSti : PState := (parseLinesStrict initPState c2exPre).getD initPState

/-- The parse state after the failing line of the error-containment
example. -/
def c2exSterr : PState :=
  match parseLine c2exSti c2exLine with
  | .ok st => st
  | .error _ => initPState

/-- Input of the case-insensitivity test: `[Sec]`, `key=1`, `KEY=2`. -/
def c8Bytes : List Nat := (("[Sec]\nkey=1\nKEY=2").data).map Char.toNat

/-- The document produced by parsing `c8Bytes`: the reserved global section
and a section `sec` holding exactly one `Value` entry `key` with value
`2`. -/
def c8Doc : List havINISection :=
  [newHavSection ("hi_global".data),
   ⟨("sec".data), none,
    [⟨.Value, ("key".data), ("2".data), none, false, false, []⟩], 0, 0⟩]

/-- A well-formed 7-byte input used to instantiate the amended claim C10. -/
def c10exBytes : List Nat := (("x=1\ny=2").data).map Char.toNat

/-- The document parsed from `c10exBytes`. -/
def c10exDoc : List havINISection :=
  match ParseFile c10exBytes with
  | .ok r => r.2
  | .error _ => []

/-- Document-content preservation: every section retrievable via
`HasSection` and every key retrievable via `HasKey` from `data` is still
retrievable from `data2`.  This is the sense in which the parse loop never
rolls back accumulated state (claim C2). -/
def SubDoc (data data2 : List havINISection) : Prop :=
  (∀ q, streamHasSection data q = true → streamHasSection data2 q = true) ∧
  (∀ sq kq, streamHasKey data sq kq = true → streamHasKey data2 sq kq = true)

/-!  ## Theorems  -/

/-- C1 (code bug).  The round-trip property `Save(Load(x)) = x` for
`Save`-produced `x` fails: serializing the document `c1Doc` (section `s`,
key `k`, value `a\b`) yields the 11-byte output `[s]\r\nk=a\\b`, and
re-parsing that very output throws `Invalid escape character!` — the escape
decoder of `ParseFile` accepts only `\x`, while `WriteFile`'s encoder emits
`\\` — so `Load` fails on `Save`'s own output instead of reproducing the
document. -/
theorem c1_save_load_roundtrip_bug :
    WriteFileString c1Doc defaultStyle false = .ok c1Saved ∧
    ParseFile (c1Saved.map Char.toNat) = .error invalidEscapeMsg := by
  decide

/-- C3 (code bug).  The input decoder does not recognize the named
two-character escapes: a backslash followed by `n` (or any letter other than
`x`) throws `Invalid escape character!` instead of producing the literal
character, while `\xHHHH` (second conjunct) is decoded. -/
theorem c3_named_escape_decode_bug :
    readContents (("k=a\\nb").data) = .error invalidEscapeMsg ∧
    readContents (("k=\\x0041b").data) = .ok [("k=Ab\n").data] := by
  decide

/-- C4 (counterexample).  On the input `a CR b b` the claimed segmentation
(split at LF, lone CR, CRLF, preserving all data characters) yields the
lines `a` and `bb`, but the code consumes the character directly after the
lone CR and produces the lines `a` and `b`. -/
theorem c4_lone_cr_counterexample :
    readContents ['a', '\r', 'b', 'b'] = .ok [['a', '\n'], ['b', '\n']] ∧
    claimSplit ['a', '\r', 'b', 'b'] = [['a', '\n'], ['b', 'b', '\n']] ∧
    ([['a', '\n'], ['b', '\n']] : List (List Char)) ≠
      [['a', '\n'], ['b', 'b', '\n']] := by
  decide

/-- C5 (counterexample).  The buffer `61 00 00 00 61 00` begins with none of
the five BOM patterns, so the claim classifies it `None` with 0 bytes
skipped; the code's zero-byte heuristic classifies it UTF-32LE — and, unlike
the claim's "skip 4 for UTF-32LE", skips 0 bytes. -/
theorem c5_heuristic_counterexample :
    detectBOMType [0x61, 0, 0, 0, 0x61, 0] = (.UTF32LE, 0) ∧
    detectBOMType [0x61, 0, 0, 0, 0x61, 0] ≠ (.None, 0) ∧
    detectBOMType [0x61, 0, 0, 0, 0x61, 0] ≠ (.UTF32LE, 4) := by
  decide

/-- C8 (confirmed).  Parsing `[Sec]` / `key=1` / `KEY=2` in the default
case-insensitive build returns `true` and produces exactly the document
`c8Doc`: the global section (empty) and a section named `sec` holding
exactly one entry, a `Value` under key `key` whose final value is `2` — the
second assignment updated the first entry in place. -/
theorem c8_case_insensitive_update :
    ParseFile c8Bytes = .ok (true, c8Doc) ∧
    streamGetValue c8Doc ("Sec".data) ("KEY".data) [] = ("2".data) ∧
    streamHasKey c8Doc ("sec".data) ("key".data) = true ∧
    (c8Doc.map fun sec => sec.keyValuePairs.length) = [0, 1] ∧
    (c8Doc.map fun sec => sec.keyValuePairs.map (fun d => d.type)) =
      [[], [.Value]] := by
  decide

/-- C10 (counterexample).  The 6-byte input `k=a\qb` can be "opened" and is
not too small, yet `ParseFile` neither returns `true` nor `false`: the
escape decoder throws `Invalid escape character!`, which propagates out of
the function. -/
theorem c10_throw_counterexample :
    6 ≤ ((("k=a\\qb").data).map Char.toNat).length ∧
    ParseFile ((("k=a\\qb").data).map Char.toNat) = .error invalidEscapeMsg := by
  decide

/-- C6 (confirmed).  On a key/value line containing both `=` (at its first
position `i`) and `:` (at its first position `j`), the parser's delimiter is
the one that occurs textually first, value parsing resumes immediately after
position `min i j`, and the chosen character's first occurrence is exactly
at `min i j` (so the key scan, which stops at the first occurrence of the
chosen delimiter, reads the text up to it). -/
theorem c6_delimiter_precedence (line : List Char) (i j : Nat)
    (hi : strFind '=' line = some i) (hj : strFind ':' line = some j) :
    chooseEndCharacter line = (if i ≤ j then '=' else ':') ∧
    valueStartIndex line = some (Nat.min i j + 1) ∧
    strFind (chooseEndCharacter line) line = some (Nat.min i j) := by
  unfold chooseEndCharacter valueStartIndex
  rw [hi, hj]
  by_cases h : i ≤ j
  · have hij : ¬ i > j := by omega
    simp [h, hij, Nat.min_eq_left h, hi]
  · have hij : i > j := by omega
    simp [hij, h, Nat.min_eq_right (by omega : j ≤ i), hj]

/-- Witness for C6 at the line `a:b=c`: `:` (position 1) precedes `=`
(position 3), so the delimiter is `:` and the value starts at index 2. -/
theorem c6_delimiter_precedence_witness :
    chooseEndCharacter (("a:b=c").data) = ':' ∧
    valueStartIndex (("a:b=c").data) = some 2 := by
  have h := c6_delimiter_precedence (("a:b=c").data) 3 1 (by decide) (by decide)
  exact ⟨h.1.trans (by decide), h.2.1.trans (by decide)⟩

set_option maxHeartbeats 2000000 in
/-- C5 (amended).  For a buffer with at least 4 bytes: each of the five BOM
patterns, matched in the precedence order UTF-32LE, UTF-32BE, UTF-16LE,
UTF-16BE, UTF-8, gives the stated classification with skip lengths
4, 4, 2, 2, 3 (in particular `FF FE 00 00` is UTF-32LE, never UTF-16LE);
when no BOM pattern matches, the zero-byte heuristic may still classify
UTF-32LE/UTF-32BE/UTF-16LE/UTF-16BE — with 0 bytes skipped — and only
otherwise is the buffer classified `None` with 0 bytes skipped. -/
theorem c5_detect_amended (b0 b1 b2 b3 : Nat) (rest : List Nat) :
    (b0 = 0xff ∧ b1 = 0xfe ∧ b2 = 0x00 ∧ b3 = 0x00 →
      detectBOMType (b0 :: b1 :: b2 :: b3 :: rest) = (.UTF32LE, 4)) ∧
    (b0 = 0x00 ∧ b1 = 0x00 ∧ b2 = 0xfe ∧ b3 = 0xff →
      detectBOMType (b0 :: b1 :: b2 :: b3 :: rest) = (.UTF32BE, 4)) ∧
    (b0 = 0xff ∧ b1 = 0xfe ∧ ¬(b2 = 0x00 ∧ b3 = 0x00) →
      detectBOMType (b0 :: b1 :: b2 :: b3 :: rest) = (.UTF16LE, 2)) ∧
    (b0 = 0xfe ∧ b1 = 0xff →
      detectBOMType (b0 :: b1 :: b2 :: b3 :: rest) = (.UTF16BE, 2)) ∧
    (b0 = 0xef ∧ b1 = 0xbb ∧ b2 = 0xbf →
      detectBOMType (b0 :: b1 :: b2 :: b3 :: rest) = (.UTF8, 3)) ∧
    (b0 ≠ 0x00 ∧ b1 = 0x00 ∧ b2 = 0x00 ∧ b3 = 0x00 →
      detectBOMType (b0 :: b1 :: b2 :: b3 :: rest) = (.UTF32LE, 0)) ∧
    (b0 = 0x00 ∧ b1 = 0x00 ∧ b2 = 0x00 ∧ b3 ≠ 0x00 →
      detectBOMType (b0 :: b1 :: b2 :: b3 :: rest) = (.UTF32BE, 0)) ∧
    (b0 ≠ 0x00 ∧ b1 = 0x00 ∧ b2 ≠ 0x00 ∧ b3 = 0x00 →
      detectBOMType (b0 :: b1 :: b2 :: b3 :: rest) = (.UTF16LE, 0)) ∧
    (b0 = 0x00 ∧ b1 ≠ 0x00 ∧ b2 = 0x00 ∧ b3 ≠ 0x00 →
      detectBOMType (b0 :: b1 :: b2 :: b3 :: rest) = (.UTF16BE, 0)) ∧
    (¬(b0 = 0xff ∧ b1 = 0xfe ∧ b2 = 0x00 ∧ b3 = 0x00) →
     ¬(b0 = 0x00 ∧ b1 = 0x00 ∧ b2 = 0xfe ∧ b3 = 0xff) →
     ¬(b0 = 0xff ∧ b1 = 0xfe) → ¬(b0 = 0xfe ∧ b1 = 0xff) →
     ¬(b0 = 0xef ∧ b1 = 0xbb ∧ b2 = 0xbf) →
     ¬(b0 ≠ 0x00 ∧ b1 = 0x00 ∧ b2 = 0x00 ∧ b3 = 0x00) →
     ¬(b0 = 0x00 ∧ b1 = 0x00 ∧ b2 = 0x00 ∧ b3 ≠ 0x00) →
     ¬(b0 ≠ 0x00 ∧ b1 = 0x00 ∧ b2 ≠ 0x00 ∧ b3 = 0x00) →
     ¬(b0 = 0x00 ∧ b1 ≠ 0x00 ∧ b2 = 0x00 ∧ b3 ≠ 0x00) →
      detectBOMType (b0 :: b1 :: b2 :: b3 :: rest) = (.None, 0)) := by
  refine ⟨?_, ?_, ?_, ?_, ?_, ?_, ?_, ?_, ?_, ?_⟩ <;>
    intros <;>
    simp only [detectBOMType, List.getD_cons_zero, List.getD_cons_succ] <;>
    split_ifs <;> first | rfl | omega

/-- Witness for C5's amended statement at a buffer starting with
`FF FE 00 00`: classified UTF-32LE with 4 bytes skipped. -/
theorem c5_detect_amended_witness :
    detectBOMType [0xff, 0xfe, 0x00, 0x00, 0x61, 0x00] = (.UTF32LE, 4) :=
  (c5_detect_amended 0xff 0xfe 0x00 0x00 [0x61, 0x00]).1
    ⟨rfl, rfl, rfl, rfl⟩

/-- C10 (amended).  `ParseFile` returns `false` exactly for an empty or
too-small (< 6 bytes) input; for inputs of at least 6 bytes every normal
return is `true` — structural parse errors included, they are only printed —
and the only non-`true` outcomes are escaped exceptions (`.error`). -/
theorem c10_return_values_amended (bytes : List Nat) :
    (bytes.length < 6 → ParseFile bytes = .ok (false, initPState.mData)) ∧
    (6 ≤ bytes.length → ∀ r data, ParseFile bytes = .ok (r, data) →
      r = true) := by
  constructor
  · intro h
    rcases Nat.eq_zero_or_pos bytes.length with h0 | h0
    · simp [ParseFile, h0]
    · unfold ParseFile
      rw [if_neg (by omega), if_pos h]
  · intro h r data hok
    unfold ParseFile at hok
    rw [if_neg (by omega), if_neg (by omega)] at hok
    cases hdec : decodeBytes bytes with
    | error e => simp only [hdec] at hok; exact absurd hok (by simp)
    | ok contents =>
      simp only [hdec] at hok
      unfold parseFromContents at hok
      cases hrc : readContents contents with
      | error e => simp only [hrc] at hok; exact absurd hok (by simp)
      | ok buffer =>
        simp only [hrc] at hok
        cases hpl : parseLines initPState buffer with
        | error e => simp only [hpl] at hok; exact absurd hok (by simp)
        | ok st =>
          simp only [hpl] at hok
          rw [Except.ok.injEq, Prod.mk.injEq] at hok
          exact hok.1.symm

/-- Witness for C10's amended statement: a 1-byte input returns `false`, and
a well-formed 7-byte input's `true` return instantiates the second part. -/
theorem c10_return_values_amended_witness :
    ParseFile [0x6b] = .ok (false, initPState.mData) ∧ (true : Bool) = true :=
  ⟨(c10_return_values_amended [0x6b]).1 (by decide),
   (c10_return_values_amended c10exBytes).2 (by decide) true c10exDoc
     (by decide)⟩

/-- Helper for C7: `GetArrayIndexGo` on entries whose keys all parse as
`unsigned int` values `ns` (each with `n + 1 < 2^32`, so the increment does
not wrap) computes the fold of `if acc ≤ k then k + 1 else acc` over `ns`. -/
theorem getArrayIndexGo_parse (arr : List havINIArrayEntry) :
    ∀ (ns : List Nat) (acc : Nat),
    arr.map (fun a => stolU a.key) = ns.map some →
    (∀ n ∈ ns, n + 1 < 2 ^ 32) →
    GetArrayIndexGo acc arr =
      .ok (ns.foldl (fun a k => if a ≤ k then k + 1 else a) acc) := by
  induction arr with
  | nil =>
    intro ns acc hmap _
    cases ns with
    | nil => simp [GetArrayIndexGo]
    | cons n ns' => simp at hmap
  | cons e rest ih =>
    intro ns acc hmap hbound
    cases ns with
    | nil => simp at hmap
    | cons n ns' =>
      simp only [List.map_cons, List.cons.injEq] at hmap
      have hb : n + 1 < 2 ^ 32 := hbound n (by simp)
      simp only [GetArrayIndexGo, hmap.1, List.foldl_cons]
      rw [show (if acc ≤ n then (n + 1) % 2 ^ 32 else acc) =
          (if acc ≤ n then n + 1 else acc) from by
        rw [Nat.mod_eq_of_lt hb]]
      exact ih ns' _ hmap.2 (fun m hm => hbound m (by simp [hm]))

/-- Helper for C7: `Nat.max` with zero on the left. -/
theorem natZeroMax (x : Nat) : Nat.max 0 x = x := by
  simp [Nat.max_def]

/-- Helper for C7: `Nat.max` distributes over successor. -/
theorem natSuccMaxSucc (x y : Nat) : Nat.max (x + 1) (y + 1) = Nat.max x y + 1 := by
  simp only [Nat.max_def]
  split_ifs <;> omega

/-- Helper for C7: pulling the accumulator out of the `max (· + 1)` fold. -/
theorem foldlMax_acc (ns : List Nat) :
    ∀ b, List.foldl (fun m k => Nat.max m (k + 1)) b ns =
      Nat.max b (List.foldl (fun m k => Nat.max m (k + 1)) 0 ns) := by
  induction ns with
  | nil => intro b; simp
  | cons k ns ih =>
    intro b
    simp only [List.foldl_cons, natZeroMax]
    rw [ih (Nat.max b (k + 1)), ih (k + 1)]
    simp only [Nat.max_def]
    split_ifs <;> omega

/-- Helper for C7: the `GetArrayIndex` fold equals the maximum of the
accumulator and one past the largest key. -/
theorem foldlStep_eq_max (ns : List Nat) :
    ∀ a, List.foldl (fun acc k => if acc ≤ k then k + 1 else acc) a ns =
      Nat.max a (List.foldl (fun m k => Nat.max m (k + 1)) 0 ns) := by
  induction ns with
  | nil => intro a; simp
  | cons k ns ih =>
    intro a
    simp only [List.foldl_cons, natZeroMax]
    rw [ih, foldlMax_acc ns (k + 1)]
    have hstep : (if a ≤ k then k + 1 else a) = Nat.max a (k + 1) := by
      simp only [Nat.max_def]
      split_ifs <;> omega
    rw [hstep]
    simp only [Nat.max_def]
    split_ifs <;> omega

/-- Helper for C7: the `max (· + 1)` fold started at `k + 1` is one past the
plain max fold started at `k`. -/
theorem foldlMaxSucc (ns : List Nat) :
    ∀ k, List.foldl (fun m j => Nat.max m (j + 1)) (k + 1) ns =
      (List.foldl Nat.max k ns) + 1 := by
  induction ns with
  | nil => intro k; rfl
  | cons m ns ih =>
    intro k
    simp only [List.foldl_cons]
    rw [natSuccMaxSucc, ih]

/-- C7 (confirmed).  Inserting three unindexed elements under a fresh array
key assigns sub-keys `0`, `1`, `2` in order; after inserting explicit index
`5` into a fresh array, the next unindexed insertion gets sub-key `6`; and
in general, on an array whose sub-keys parse as the numbers `ns` (with no
`unsigned int` wrap), the auto-assigned index `GetArrayIndex` is the maximum
existing numeric index plus 1.  (The second scenario also shows the parent
entry created with `hasArrayIndex = false` and `addQuotes = true`, the
constructor-argument slip at havINI.hpp 1079.) -/
theorem c7_array_auto_index :
    ((sectionSetArrayEntry (newHavSection ("s".data)) ("arr".data)
        ("v1".data) false false [] [] false).bind fun s1 =>
      (sectionSetArrayEntry s1 ("arr".data) ("v2".data) false false [] []
        false).bind fun s2 =>
      sectionSetArrayEntry s2 ("arr".data) ("v3".data) false false [] []
        false) =
      .ok ⟨("s".data), none,
        [⟨.Array, ("arr".data), [], none, false, false,
          [⟨("0".data), ("v1".data), false, none⟩,
           ⟨("1".data), ("v2".data), false, none⟩,
           ⟨("2".data), ("v3".data), false, none⟩]⟩], 0, 0⟩ ∧
    ((sectionSetArrayEntry (newHavSection ("s".data)) ("arr".data)
        ("v1".data) false false [] ("5".data) true).bind fun s1 =>
      sectionSetArrayEntry s1 ("arr".data) ("v2".data) false false [] []
        false) =
      .ok ⟨("s".data), none,
        [⟨.Array, ("arr".data), [], none, true, false,
          [⟨("5".data), ("v1".data), false, none⟩,
           ⟨("6".data), ("v2".data), false, none⟩]⟩], 0, 0⟩ ∧
    (∀ (arr : List havINIArrayEntry) (ns : List Nat),
      arr.map (fun a => stolU a.key) = ns.map some →
      (∀ n ∈ ns, n + 1 < 2 ^ 32) → ns ≠ [] →
      GetArrayIndex arr = .ok ((ns.foldl Nat.max 0) + 1)) := by
  refine ⟨by decide, by decide, ?_⟩
  intro arr ns hmap hbound hne
  unfold GetArrayIndex
  rw [getArrayIndexGo_parse arr ns 0 hmap hbound, foldlStep_eq_max, natZeroMax]
  cases ns with
  | nil => exact absurd rfl hne
  | cons n ns' =>
    simp only [List.foldl_cons, natZeroMax]
    rw [foldlMaxSucc ns' n]

/-- Witness for C7's general clause: an array with sub-keys `5` and `2`
auto-assigns index `max 5 2 + 1 = 6`. -/
theorem c7_array_auto_index_witness :
    GetArrayIndex [⟨("5".data), [], false, none⟩,
      ⟨("2".data), [], false, none⟩] = .ok 6 := by
  have h := c7_array_auto_index.2.2
    [⟨("5".data), [], false, none⟩, ⟨("2".data), [], false, none⟩]
    [5, 2] (by decide) (by decide) (by decide)
  exact h.trans (by decide)

/-- `Char.ofNat` on values below the surrogate range keeps the numeric
value. -/
theorem charToNat_ofNat_lt (n : Nat) (h : n < 55296) :
    (Char.ofNat n).toNat = n := by
  have hv : n.isValidChar := Or.inl h
  simp [Char.ofNat, hv, Char.toNat, Char.ofNatAux, UInt32.toNat, UInt32.ofNatCore]

/-- ASCII lowercasing is idempotent. -/
theorem toLowerChar_idem (c : Char) :
    toLowerChar (toLowerChar c) = toLowerChar c := by
  unfold toLowerChar
  by_cases h : 'A' ≤ c ∧ c ≤ 'Z'
  · rw [if_pos h]
    have h1 : 65 ≤ c.toNat := h.1
    have h2 : c.toNat ≤ 90 := h.2
    rw [if_neg]
    intro hc
    have h3 : (Char.ofNat (c.toNat + 32)).toNat ≤ 90 := hc.2
    rw [charToNat_ofNat_lt _ (by omega)] at h3
    omega
  · rw [if_neg h, if_neg h]

/-- `ToLower` is idempotent. -/
theorem ToLower_idem (s : List Char) : ToLower (ToLower s) = ToLower s := by
  simp [ToLower, List.map_map, Function.comp_def, toLowerChar_idem]

/-- `find?` over an append when the first part already matches. -/
theorem find?_append_first {α : Type} {p : α → Bool} {l1 l2 : List α} {x : α}
    (h : l1.find? p = some x) : (l1 ++ l2).find? p = some x := by
  rw [List.find?_append, h]
  rfl

/-- `find?` over an append when the first part has no match. -/
theorem find?_append_second {α : Type} {p : α → Bool} {l1 l2 : List α}
    (h : l1.find? p = none) : (l1 ++ l2).find? p = l2.find? p := by
  rw [List.find?_append, h]
  rfl

/-- Updating the first `n`-named section, with a name-preserving and
`p`-preserving update, moves any `find?` result to itself or to its image
under `f`. -/
theorem find?_updateFirstSection_or (data : List havINISection) (n : List Char)
    (f : havINISection → havINISection) (p : havINISection → Bool)
    (hp : ∀ s, p (f s) = p s) (sec : havINISection)
    (hfind : data.find? p = some sec) :
    (updateFirstSection data n f).find? p = some sec ∨
      (updateFirstSection data n f).find? p = some (f sec) := by
  induction data with
  | nil => simp at hfind
  | cons s rest ih =>
    unfold updateFirstSection
    by_cases hn : s.sectionName = n
    · rw [if_pos hn]
      cases hps : p s with
      | true =>
        rw [List.find?_cons_of_pos _ hps] at hfind
        obtain rfl := Option.some.inj hfind
        rw [List.find?_cons_of_pos _ (by rw [hp]; exact hps)]
        exact Or.inr rfl
      | false =>
        rw [List.find?_cons_of_neg _ (by simp [hps])] at hfind
        rw [List.find?_cons_of_neg _ (by simp [hp, hps])]
        exact Or.inl hfind
    · rw [if_neg hn]
      cases hps : p s with
      | true =>
        rw [List.find?_cons_of_pos _ hps] at hfind
        obtain rfl := Option.some.inj hfind
        rw [List.find?_cons_of_pos _ hps]
        exact Or.inl rfl
      | false =>
        rw [List.find?_cons_of_neg _ (by simp [hps])] at hfind
        rw [List.find?_cons_of_neg _ (by simp [hps])]
        exact ih hfind

/-- Updating the first `n`-named section when the first `p`-match is known:
the result is the image of that match exactly when its name is `n`;
otherwise the `find?` result is unchanged.  Specialised below; here we only
need the first-match version for the same name. -/
theorem find?_updateFirstSection_eq (data : List havINISection) (n : List Char)
    (f : havINISection → havINISection)
    (hname : ∀ s, (f s).sectionName = s.sectionName) (sec : havINISection)
    (hfind : data.find? (fun s => s.sectionName = n) = some sec) :
    (updateFirstSection data n f).find? (fun s => s.sectionName = n) =
      some (f sec) := by
  induction data with
  | nil => simp at hfind
  | cons s rest ih =>
    unfold updateFirstSection
    by_cases hn : s.sectionName = n
    · rw [if_pos hn]
      rw [List.find?_cons_of_pos _ (by simpa using hn)] at hfind
      obtain rfl := Option.some.inj hfind
      rw [List.find?_cons_of_pos _ (by simp [hname s, hn])]
    · rw [if_neg hn]
      rw [List.find?_cons_of_neg _ (by simpa using hn)] at hfind
      rw [List.find?_cons_of_neg _ (by simpa using hn)]
      exact ih hfind

/-- The first match of a key in `updateFirstPair` with a key-preserving
update is the image of the original first match. -/
theorem find?_updateFirstPair_eq (pairs : List havINIData) (k : List Char)
    (f : havINIData → havINIData) (hkey : ∀ d, (f d).key = d.key)
    (d : havINIData) (hfind : pairs.find? (fun x => x.key = k) = some d) :
    (updateFirstPair pairs k f).find? (fun x => x.key = k) = some (f d) := by
  induction pairs with
  | nil => simp at hfind
  | cons x rest ih =>
    unfold updateFirstPair
    by_cases hx : x.key = k
    · rw [if_pos hx]
      rw [List.find?_cons_of_pos _ (by simpa using hx)] at hfind
      obtain rfl := Option.some.inj hfind
      rw [List.find?_cons_of_pos _ (by simp [hkey x, hx])]
    · rw [if_neg hx]
      rw [List.find?_cons_of_neg _ (by simpa using hx)] at hfind
      rw [List.find?_cons_of_neg _ (by simpa using hx)]
      exact ih hfind

/-- C9 (confirmed).  `havINIStream::SetValue` returns `true` for every
combination of document, section name, key name, value and quoting flag (its
`return false` path is unreachable); afterwards `GetValue` retrieves exactly
the stored value; and the document is transformed as the claim states: a
missing section is appended holding the new pair, a missing key is appended
to the existing section, and an existing entry has its value and quoting
flag overwritten in place. -/
theorem c9_setvalue_total (data : List havINISection)
    (sectionName keyName value : List Char) (addQuotes : Bool) :
    (streamSetValue data sectionName keyName value addQuotes).1 = true ∧
    (∀ dflt, streamGetValue
      (streamSetValue data sectionName keyName value addQuotes).2
      sectionName keyName dflt = value) ∧
    (data.find? (fun sec => sec.sectionName = ToLower sectionName) = none →
      (streamSetValue data sectionName keyName value addQuotes).2 =
        data ++ [sectionSetKeyValuePair (newSection (ToLower sectionName))
          (ToLower keyName) value addQuotes]) ∧
    (∀ sec,
      data.find? (fun s => s.sectionName = ToLower sectionName) = some sec →
      sec.keyValuePairs.any (fun d => d.key = ToLower keyName) = false →
      (streamSetValue data sectionName keyName value addQuotes).2 =
        updateFirstSection data (ToLower sectionName) (fun sc =>
          sectionSetKeyValuePair sc (ToLower keyName) value addQuotes)) ∧
    (∀ sec,
      data.find? (fun s => s.sectionName = ToLower sectionName) = some sec →
      sec.keyValuePairs.any (fun d => d.key = ToLower keyName) = true →
      (streamSetValue data sectionName keyName value addQuotes).2 =
        updateFirstSection data (ToLower sectionName) (fun sc =>
          { sc with keyValuePairs := updateFirstPair sc.keyValuePairs (ToLower keyName) (fun d =>
              { d with value := value, addQuotes := addQuotes }) })) := by
  unfold streamSetValue
  dsimp only
  cases hfind : data.find? (fun s => s.sectionName = ToLower sectionName) with
  | none =>
    refine ⟨rfl, ?_, fun _ => rfl, fun sec hsec => by simp [hfind] at hsec,
      fun sec hsec => by simp [hfind] at hsec⟩
    intro dflt
    unfold streamGetValue
    rw [find?_append_second hfind]
    have hnew : (sectionSetKeyValuePair (newSection (ToLower sectionName))
        (ToLower keyName) value addQuotes) =
        { sectionName := ToLower sectionName, inlineComment := none,
          keyValuePairs := [⟨.Value, ToLower (ToLower keyName), value, none,
            addQuotes, false, []⟩],
          commentLineCount := 0, emptyLineCount := 0 } := by
      simp [sectionSetKeyValuePair, newSection]
    rw [hnew]
    simp [List.find?_cons, ToLower_idem]
  | some sec =>
    dsimp only
    by_cases hkey : sec.keyValuePairs.any (fun d => d.key = ToLower keyName)
    · rw [if_pos hkey]
      refine ⟨rfl, ?_, fun hn => by simp [hfind] at hn,
        fun sec' hsec' hk' => ?_, fun _ _ _ => rfl⟩
      · intro dflt
        unfold streamGetValue
        have hname : ∀ sc : havINISection,
            (({ sc with keyValuePairs := updateFirstPair sc.keyValuePairs (ToLower keyName) (fun d =>
                { d with value := value, addQuotes := addQuotes }) }) :
              havINISection).sectionName = sc.sectionName := fun _ => rfl
        rw [find?_updateFirstSection_eq data _ _ hname sec hfind]
        dsimp only
        have hsome : (List.find? (fun d => decide (d.key = ToLower keyName))
            sec.keyValuePairs).isSome := by
          rw [List.find?_isSome]
          simpa using hkey
        obtain ⟨d0, hd0⟩ := Option.isSome_iff_exists.mp hsome
        rw [find?_updateFirstPair_eq sec.keyValuePairs (ToLower keyName) (fun d =>
            { d with value := value, addQuotes := addQuotes }) (fun _ => rfl) d0 hd0]
      · obtain rfl := Option.some.inj hsec'
        rw [hkey] at hk'
        simp at hk'
    · rw [if_neg hkey]
      rw [Bool.not_eq_true] at hkey
      refine ⟨rfl, ?_, fun hn => by simp [hfind] at hn,
        fun _ _ _ => rfl, fun sec' hsec' hk' => ?_⟩
      · intro dflt
        unfold streamGetValue
        have hname : ∀ sc : havINISection,
            (sectionSetKeyValuePair sc (ToLower keyName) value
              addQuotes).sectionName = sc.sectionName := by
          intro sc
          unfold sectionSetKeyValuePair
          dsimp only
          split <;> rfl
        rw [find?_updateFirstSection_eq data _ _ hname sec hfind]
        dsimp only
        have hpairs : (sectionSetKeyValuePair sec (ToLower keyName) value
            addQuotes).keyValuePairs = sec.keyValuePairs ++
            [⟨.Value, ToLower (ToLower keyName), value, none, addQuotes,
              false, []⟩] := by
          unfold sectionSetKeyValuePair
          rw [if_neg]
          rw [ToLower_idem, hkey]
          simp
        rw [hpairs, find?_append_second]
        · simp [List.find?_cons, ToLower_idem]
        · rw [List.find?_eq_none]
          intro x hx
          have := List.any_eq_false.mp hkey x hx
          simpa using this
      · obtain rfl := Option.some.inj hsec'
        rw [hkey] at hk'
        simp at hk'

/-- Witness for C9 on a concrete document: setting `K` in section `S` of a
one-section document returns `true`, and the value is retrievable. -/
theorem c9_setvalue_total_witness :
    (streamSetValue [newHavSection ("hi_global".data)] ("S".data) ("K".data)
      ("7".data) false).1 = true ∧
    streamGetValue (streamSetValue [newHavSection ("hi_global".data)]
      ("S".data) ("K".data) ("7".data) false).2 ("S".data) ("K".data) [] =
      ("7".data) := by
  have h := c9_setvalue_total [newHavSection ("hi_global".data)] ("S".data)
    ("K".data) ("7".data) false
  exact ⟨h.1, h.2.1 []⟩

/-- `SubDoc` is reflexive. -/
theorem subDoc_refl (data : List havINISection) : SubDoc data data :=
  ⟨fun _ h => h, fun _ _ h => h⟩

/-- `SubDoc` is transitive. -/
theorem subDoc_trans {a b c : List havINISection}
    (h1 : SubDoc a b) (h2 : SubDoc b c) : SubDoc a c :=
  ⟨fun q h => h2.1 q (h1.1 q h), fun sq kq h => h2.2 sq kq (h1.2 sq kq h)⟩

/-- Appending sections at the end preserves retrievability. -/
theorem subDoc_append (data ext : List havINISection) :
    SubDoc data (data ++ ext) := by
  constructor
  · intro q h
    simp only [streamHasSection] at h ⊢
    simp [List.any_append, h]
  · intro sq kq h
    simp only [streamHasKey] at h ⊢
    cases hfd : List.find? (fun sec => decide (sec.sectionName = ToLower sq)) data with
    | none => rw [hfd] at h; exact Bool.noConfusion h
    | some sec =>
      rw [hfd] at h
      rw [find?_append_first hfd]
      exact h

/-- `updateFirstPair` with a key-preserving mutation leaves key membership
unchanged. -/
theorem any_key_updateFirstPair (pairs : List havINIData) (k : List Char)
    (f : havINIData → havINIData) (hf : ∀ d, (f d).key = d.key) (q : List Char) :
    (updateFirstPair pairs k f).any (fun d => d.key = q) =
      pairs.any (fun d => d.key = q) := by
  induction pairs with
  | nil => rfl
  | cons d rest ih =>
    unfold updateFirstPair
    by_cases hd : d.key = k
    · rw [if_pos hd]
      simp [List.any_cons, hf d]
    · rw [if_neg hd]
      simp [List.any_cons, ih]

/-- `updateFirstSection` with a name-preserving mutation leaves section
membership unchanged. -/
theorem any_name_updateFirstSection (data : List havINISection) (n : List Char)
    (f : havINISection → havINISection)
    (hf : ∀ s, (f s).sectionName = s.sectionName) (q : List Char) :
    (updateFirstSection data n f).any (fun s => s.sectionName = q) =
      data.any (fun s => s.sectionName = q) := by
  induction data with
  | nil => rfl
  | cons s rest ih =>
    unfold updateFirstSection
    by_cases hs : s.sectionName = n
    · rw [if_pos hs]
      simp [List.any_cons, hf s]
    · rw [if_neg hs]
      simp [List.any_cons, ih]

/-- `find?` by section name through `updateFirstSection` with a
name-preserving mutation: the first match is transformed exactly when it is
the first section named `n`. -/
theorem find?_name_updateFirstSection (data : List havINISection) (n : List Char)
    (f : havINISection → havINISection)
    (hf : ∀ s, (f s).sectionName = s.sectionName) (q : List Char) :
    List.find? (fun s => s.sectionName = q) (updateFirstSection data n f) =
      (List.find? (fun s => s.sectionName = q) data).map
        (fun sec => if sec.sectionName = n then f sec else sec) := by
  induction data with
  | nil => rfl
  | cons s rest ih =>
    unfold updateFirstSection
    by_cases hn : s.sectionName = n
    · rw [if_pos hn]
      by_cases hq : s.sectionName = q
      · rw [List.find?_cons_of_pos _ (by simp [hf s, hq])]
        rw [List.find?_cons_of_pos _ (by simp [hq])]
        simp [Option.map, hn]
      · rw [List.find?_cons_of_neg _ (by simp [hf s, hq])]
        rw [List.find?_cons_of_neg _ (by simp [hq])]
        cases hfr : List.find? (fun s => decide (s.sectionName = q)) rest with
        | none => rfl
        | some sec =>
          have hsec : sec.sectionName = q := by
            have := List.find?_some hfr
            simpa using this
          have hne : ¬ sec.sectionName = n := by
            rw [hsec]
            intro hqn
            exact hq (hn.trans hqn.symm)
          simp [Option.map, if_neg hne]
    · rw [if_neg hn]
      by_cases hq : s.sectionName = q
      · rw [List.find?_cons_of_pos _ (by simp [hq])]
        rw [List.find?_cons_of_pos _ (by simp [hq])]
        simp [Option.map, hn]
      · rw [List.find?_cons_of_neg _ (by simp [hq])]
        rw [List.find?_cons_of_neg _ (by simp [hq])]
        exact ih

/-- `withSection` with a name-preserving, key-monotone mutation preserves
retrievability of all sections and keys. -/
theorem subDoc_withSection (data : List havINISection) (nm : List Char)
    (f : havINISection → havINISection)
    (hf1 : ∀ s, (f s).sectionName = s.sectionName)
    (hf2 : ∀ s q, s.keyValuePairs.any (fun d => d.key = q) = true →
      (f s).keyValuePairs.any (fun d => d.key = q) = true) :
    SubDoc data (withSection data nm f) := by
  unfold withSection
  by_cases hhs : streamHasSection data nm
  · rw [if_pos hhs]
    constructor
    · intro q h
      simp only [streamHasSection] at h ⊢
      rw [any_name_updateFirstSection data (ToLower nm) f hf1]
      exact h
    · intro sq kq h
      simp only [streamHasKey] at h ⊢
      rw [find?_name_updateFirstSection data (ToLower nm) f hf1]
      cases hfd : List.find? (fun sec => decide (sec.sectionName = ToLower sq)) data with
      | none => rw [hfd] at h; exact Bool.noConfusion h
      | some sec =>
        rw [hfd] at h
        dsimp only [Option.map]
        by_cases hsn : sec.sectionName = ToLower nm
        · rw [if_pos hsn]
          exact hf2 sec _ h
        · rw [if_neg hsn]
          exact h
  · rw [if_neg hhs]
    exact subDoc_append data _

/-- Key membership is monotone under appending pairs. -/
theorem any_key_append (pairs ext : List havINIData) (q : List Char)
    (h : pairs.any (fun d => d.key = q) = true) :
    (pairs ++ ext).any (fun d => d.key = q) = true := by
  simp [List.any_append, h]

/-- The empty-line mutation preserves the section name. -/
theorem emptyLineF_name (sec : havINISection) :
    (emptyLineF sec).sectionName = sec.sectionName := by
  unfold emptyLineF sectionSetEmptyLineEnd
  dsimp only
  split <;> rfl

/-- The empty-line mutation only ever appends a pair. -/
theorem emptyLineF_keys (sec : havINISection) (q : List Char)
    (h : sec.keyValuePairs.any (fun d => d.key = q) = true) :
    (emptyLineF sec).keyValuePairs.any (fun d => d.key = q) = true := by
  unfold emptyLineF sectionSetEmptyLineEnd
  dsimp only
  split
  · exact h
  · exact any_key_append _ _ q h

/-- The comment mutation preserves the section name. -/
theorem commentF_name (text : List Char) (sec : havINISection) :
    (commentF text sec).sectionName = sec.sectionName := by
  unfold commentF sectionSetCommentEnd
  dsimp only
  split <;> rfl

/-- The comment mutation only ever appends a pair. -/
theorem commentF_keys (text : List Char) (sec : havINISection) (q : List Char)
    (h : sec.keyValuePairs.any (fun d => d.key = q) = true) :
    (commentF text sec).keyValuePairs.any (fun d => d.key = q) = true := by
  unfold commentF sectionSetCommentEnd
  dsimp only
  split
  · exact h
  · exact any_key_append _ _ q h

/-- `SetKeyValuePair` preserves the section name. -/
theorem sectionSetKeyValuePair_name (sec : havINISection) (k v : List Char)
    (aq : Bool) :
    (sectionSetKeyValuePair sec k v aq).sectionName = sec.sectionName := by
  unfold sectionSetKeyValuePair
  dsimp only
  split <;> rfl

/-- `SetKeyValuePair` overwrites in place or appends: key membership is
monotone. -/
theorem sectionSetKeyValuePair_keys (sec : havINISection) (k v : List Char)
    (aq : Bool) (q : List Char)
    (h : sec.keyValuePairs.any (fun d => d.key = q) = true) :
    (sectionSetKeyValuePair sec k v aq).keyValuePairs.any
      (fun d => d.key = q) = true := by
  unfold sectionSetKeyValuePair
  dsimp only
  split
  · rw [any_key_updateFirstPair sec.keyValuePairs (ToLower k) (fun d =>
        { d with value := v, addQuotes := aq }) (fun d => rfl)]
    exact h
  · exact any_key_append _ _ q h

/-- The plain-pair insertion preserves the section name. -/
theorem insertPlainPair_name (sec : havINISection) (k v : List Char)
    (aq : Bool) (nic : List Char) :
    (insertPlainPair sec k v aq nic).sectionName = sec.sectionName := by
  unfold insertPlainPair
  dsimp only
  exact sectionSetKeyValuePair_name sec k v aq

/-- The plain-pair insertion is key-monotone. -/
theorem insertPlainPair_keys (sec : havINISection) (k v : List Char)
    (aq : Bool) (nic q : List Char)
    (h : sec.keyValuePairs.any (fun d => d.key = q) = true) :
    (insertPlainPair sec k v aq nic).keyValuePairs.any
      (fun d => d.key = q) = true := by
  unfold insertPlainPair
  dsimp only
  rw [any_key_updateFirstPair (sectionSetKeyValuePair sec k v aq).keyValuePairs (ToLower k) (fun d =>
      { d with inlineComment := icOpt nic }) (fun d => rfl)]
  exact sectionSetKeyValuePair_keys sec k v aq q h

/-- A successful `Except.map` comes from a successful argument. -/
theorem exceptMap_ok {α β : Type} (g : α → β) (e : Except String α) (b : β)
    (h : e.map g = .ok b) : ∃ a, e = .ok a ∧ b = g a := by
  cases e with
  | error _ => simp only [Except.map] at h; exact Except.noConfusion h
  | ok a => simp only [Except.map] at h; cases h; exact ⟨a, rfl, rfl⟩

/-- A successful `updateFirstPairE` equals the pure `updateFirstPair` of the
function's successful results. -/
theorem updateFirstPairE_ok (pairs : List havINIData) (k : List Char)
    (f : havINIData → Except String havINIData) (pairs2 : List havINIData)
    (h : updateFirstPairE pairs k f = .ok pairs2) :
    pairs2 = updateFirstPair pairs k (fun d => ((f d).toOption).getD d) := by
  induction pairs generalizing pairs2 with
  | nil =>
    unfold updateFirstPairE at h
    cases h
    rfl
  | cons d rest ih =>
    unfold updateFirstPairE at h
    by_cases hd : d.key = k
    · rw [if_pos hd] at h
      cases hfd : f d with
      | error e =>
        rw [hfd] at h
        simp only [Except.map] at h
        exact Except.noConfusion h
      | ok d2 =>
        rw [hfd] at h
        simp only [Except.map] at h
        cases h
        simp [updateFirstPair, hd, hfd, Except.toOption]
    · rw [if_neg hd] at h
      cases hre : updateFirstPairE rest k f with
      | error e =>
        rw [hre] at h
        simp only [Except.map] at h
        exact Except.noConfusion h
      | ok rest2 =>
        rw [hre] at h
        simp only [Except.map] at h
        cases h
        simp [updateFirstPair, hd, ih rest2 hre]

/-- A successful `updateFirstSectionE` equals the pure `updateFirstSection`
of the function's successful results. -/
theorem updateFirstSectionE_ok (data : List havINISection) (n : List Char)
    (f : havINISection → Except String havINISection)
    (data2 : List havINISection)
    (h : updateFirstSectionE data n f = .ok data2) :
    data2 = updateFirstSection data n (fun s => ((f s).toOption).getD s) := by
  induction data generalizing data2 with
  | nil =>
    unfold updateFirstSectionE at h
    cases h
    rfl
  | cons s rest ih =>
    unfold updateFirstSectionE at h
    by_cases hs : s.sectionName = n
    · rw [if_pos hs] at h
      cases hfs : f s with
      | error e =>
        rw [hfs] at h
        simp only [Except.map] at h
        exact Except.noConfusion h
      | ok s2 =>
        rw [hfs] at h
        simp only [Except.map] at h
        cases h
        simp [updateFirstSection, hs, hfs, Except.toOption]
    · rw [if_neg hs] at h
      cases hre : updateFirstSectionE rest n f with
      | error e =>
        rw [hre] at h
        simp only [Except.map] at h
        exact Except.noConfusion h
      | ok rest2 =>
        rw [hre] at h
        simp only [Except.map] at h
        cases h
        simp [updateFirstSection, hs, ih rest2 hre]

/-- A successful `withSectionE` equals the pure `withSection` of the
function's successful results. -/
theorem withSectionE_ok (data : List havINISection) (nm : List Char)
    (f : havINISection → Except String havINISection)
    (data2 : List havINISection) (h : withSectionE data nm f = .ok data2) :
    data2 = withSection data nm (fun s => ((f s).toOption).getD s) := by
  unfold withSectionE at h
  unfold withSection
  by_cases hhs : streamHasSection data nm
  · rw [if_pos hhs] at h ⊢
    exact updateFirstSectionE_ok data (ToLower nm) f data2 h
  · rw [if_neg hhs] at h ⊢
    cases hfn : f (newSection nm) with
    | error e =>
      rw [hfn] at h
      simp only [Except.map] at h
      exact Except.noConfusion h
    | ok s2 =>
      rw [hfn] at h
      simp only [Except.map] at h
      cases h
      simp [hfn, Except.toOption]

/-- `havINIData::SetArrayEntry` never changes the entry's key. -/
theorem dataSetArrayEntry_key (d : havINIData) (key value : List Char)
    (aq sic : Bool) (ic : List Char) (d2 : havINIData)
    (h : dataSetArrayEntry d key value aq sic ic = .ok d2) : d2.key = d.key := by
  unfold dataSetArrayEntry at h
  cases hA : (if key = [] then (GetArrayIndex d.array).map (fun n => (Nat.repr n).data) else .ok key) with
  | error e =>
    rw [hA] at h
    simp only [Except.map] at h
    exact Except.noConfusion h
  | ok key0 =>
    rw [hA] at h
    simp only [Except.map] at h
    cases h
    split_ifs <;> rfl

/-- A successful `Except.map` of a `keyValuePairs` overwrite preserves the
section name. -/
theorem mapRecord_name {α : Type} (sec : havINISection)
    (g : α → List havINIData) (e : Except String α) (sec2 : havINISection)
    (h : e.map (fun x => { sec with keyValuePairs := g x }) = .ok sec2) :
    sec2.sectionName = sec.sectionName := by
  cases e with
  | error _ => simp only [Except.map] at h; exact Except.noConfusion h
  | ok x => simp only [Except.map] at h; cases h; rfl

/-- A successful `Except.map` of a `keyValuePairs` overwrite exposes the new
pair list. -/
theorem mapRecord_keys {α : Type} (sec : havINISection)
    (g : α → List havINIData) (e : Except String α) (sec2 : havINISection)
    (h : e.map (fun x => { sec with keyValuePairs := g x }) = .ok sec2) :
    ∃ x, e = .ok x ∧ sec2.keyValuePairs = g x := by
  cases e with
  | error _ => simp only [Except.map] at h; exact Except.noConfusion h
  | ok x => simp only [Except.map] at h; cases h; exact ⟨x, rfl, rfl⟩

/-- A successful `havINISection::SetArrayEntry` preserves the section
name. -/
theorem sectionSetArrayEntry_ok_name (sec : havINISection) (key value : List Char)
    (aq sic : Bool) (ic ai : List Char) (hai : Bool) (sec2 : havINISection)
    (h : sectionSetArrayEntry sec key value aq sic ic ai hai = .ok sec2) :
    sec2.sectionName = sec.sectionName := by
  unfold sectionSetArrayEntry at h
  dsimp only at h
  split at h
  · exact mapRecord_name sec _ _ sec2 h
  · exact mapRecord_name sec _ _ sec2 h

/-- A successful `havINISection::SetArrayEntry` is key-monotone: it either
overwrites inside an existing entry (same key) or appends a parent. -/
theorem sectionSetArrayEntry_ok_keys (sec : havINISection) (key value : List Char)
    (aq sic : Bool) (ic ai : List Char) (hai : Bool) (sec2 : havINISection)
    (h : sectionSetArrayEntry sec key value aq sic ic ai hai = .ok sec2)
    (q : List Char) (hq : sec.keyValuePairs.any (fun d => d.key = q) = true) :
    sec2.keyValuePairs.any (fun d => d.key = q) = true := by
  unfold sectionSetArrayEntry at h
  dsimp only at h
  split at h
  · obtain ⟨pairs2, hE, hkv⟩ := mapRecord_keys sec _ _ sec2 h
    have hfkey : ∀ d : havINIData,
        (((dataSetArrayEntry d (if hai then ai else []) value aq sic ic).toOption).getD d).key = d.key := by
      intro d
      cases hfd : dataSetArrayEntry d (if hai then ai else []) value aq sic ic with
      | error e => rfl
      | ok d2 => exact dataSetArrayEntry_key d _ value aq sic ic d2 hfd
    rw [hkv, updateFirstPairE_ok _ _ _ _ hE,
      any_key_updateFirstPair _ _ _ hfkey]
    exact hq
  · obtain ⟨parent2, hE, hkv⟩ := mapRecord_keys sec _ _ sec2 h
    rw [hkv]
    exact any_key_append _ _ q hq

/-- A successful array-entry `withSectionE` preserves retrievability. -/
theorem subDoc_withSectionE_arr (data : List havINISection) (nm k v : List Char)
    (aq sic : Bool) (ic ai : List Char) (hai : Bool)
    (data2 : List havINISection)
    (hE : withSectionE data nm (fun s => sectionSetArrayEntry s k v aq sic ic ai hai) = .ok data2) :
    SubDoc data data2 := by
  rw [withSectionE_ok _ _ _ _ hE]
  apply subDoc_withSection
  · intro s
    cases hFs : sectionSetArrayEntry s k v aq sic ic ai hai with
    | error e => rfl
    | ok s2 => exact sectionSetArrayEntry_ok_name s k v aq sic ic ai hai s2 hFs
  · intro s q hq
    cases hFs : sectionSetArrayEntry s k v aq sic ic ai hai with
    | error e => exact hq
    | ok s2 => exact sectionSetArrayEntry_ok_keys s k v aq sic ic ai hai s2 hFs q hq

/-- The empty-line branch of the parse loop preserves retrievability. -/
theorem emptyLineStep_subDoc (st : PState) :
    SubDoc st.mData (emptyLineStep st).mData := by
  unfold emptyLineStep
  dsimp only
  exact subDoc_withSection _ _ _ emptyLineF_name emptyLineF_keys

/-- The comment branch of the parse loop preserves retrievability. -/
theorem commentStep_subDoc (st : PState) (line : List Char) :
    SubDoc st.mData (commentStep st line).mData := by
  unfold commentStep
  dsimp only
  exact subDoc_withSection _ _ _ (commentF_name _) (commentF_keys _)

/-- The section branch of the parse loop preserves retrievability. -/
theorem sectionStep_subDoc (st : PState) (line : List Char) :
    SubDoc st.mData (sectionStep st line).mData := by
  unfold sectionStep
  dsimp only
  cases hc : (sectionScan true [] line.tail).2.2.2 with
  | none => exact subDoc_refl _
  | some cmt => exact subDoc_withSection _ _ _ (fun s => rfl) (fun s q h => h)

/-- The key stage never touches the section list. -/
theorem keyStep_mData (st : PState) (line : List Char) :
    (keyStep st line).mData = st.mData := by
  unfold keyStep
  dsimp only
  split_ifs <;> rfl

/-- The conditional key stage never touches the section list. -/
theorem ite_keyStep_mData (c : Prop) [Decidable c] (st : PState)
    (line : List Char) :
    (if c then keyStep st line else st).mData = st.mData := by
  split
  · exact keyStep_mData st line
  · rfl

/-- A value stage that returns (with or without recording an error text)
preserves retrievability of the previously built document. -/
theorem valueStep_subDoc (st : PState) (line : List Char) (st2 : PState)
    (h : valueStep st line = .ok st2) : SubDoc st.mData st2.mData := by
  revert h
  unfold valueStep
  dsimp only
  split_ifs <;> intro h <;>
    first
      | (cases h; exact subDoc_refl _)
      | (cases h;
         exact subDoc_withSection _ _ _
           (fun s => insertPlainPair_name s _ _ _ _)
           (fun s q hq => insertPlainPair_keys s _ _ _ _ q hq))
      | (obtain ⟨data2, hE, hst2⟩ := exceptMap_ok _ _ _ h;
         subst hst2;
         exact subDoc_withSectionE_arr _ _ _ _ _ _ _ _ _ _ hE)

/-- One accepted line of the parse loop preserves retrievability: whatever
the branch, the section list is only extended or updated in place. -/
theorem parseLine_subDoc (st : PState) (l : List Char) (st2 : PState)
    (h : parseLine st l = .ok st2) : SubDoc st.mData st2.mData := by
  revert h
  unfold parseLine
  dsimp only
  split_ifs <;> intro h <;>
    first
      | (cases h; exact emptyLineStep_subDoc st)
      | (cases h; exact commentStep_subDoc st _)
      | (cases h; exact sectionStep_subDoc st _)
      | (cases h; rw [keyStep_mData]; exact subDoc_refl _)
      | (cases h; exact subDoc_refl _)
      | (have h2 := valueStep_subDoc _ _ _ h;
         rw [keyStep_mData] at h2;
         exact h2)
      | (exact valueStep_subDoc _ _ _ h)

/-- The epilogue of `ParseFile` preserves retrievability. -/
theorem finishParse_subDoc (st : PState) :
    SubDoc st.mData (finishParse st).mData := by
  unfold finishParse
  dsimp only
  split
  · exact subDoc_refl _
  · exact subDoc_append _ _

/-- A clean run over a prefix composes with `parseLines` on the rest. -/
theorem parseLinesStrict_append (ls : List (List Char)) (st st1 : PState)
    (h : parseLinesStrict st ls = some st1) (more : List (List Char)) :
    parseLines st (ls ++ more) = parseLines st1 more := by
  induction ls generalizing st with
  | nil =>
    unfold parseLinesStrict at h
    cases h
    rfl
  | cons l ls ih =>
    unfold parseLinesStrict at h
    by_cases hge : st.errorMessage ≠ ""
    · rw [if_pos hge] at h
      exact Option.noConfusion h
    · rw [if_neg hge] at h
      cases hpl : parseLine st l with
      | error e =>
        rw [hpl] at h
        exact Option.noConfusion h
      | ok stm =>
        rw [hpl] at h
        rw [List.cons_append, parseLines, if_neg hge, hpl]
        exact ih stm h

/-- Clearing a pending error first does not change the parse epilogue. -/
theorem finishParse_clear (st : PState) :
    finishParse { st with errorMessage := "" } = finishParse st := rfl

/-- C2 (confirmed).  When the parse loop of `ParseFile` records a fatal
structural error on some line (the prefix before it having parsed cleanly
and without exceptions), the loop stops at the top of the next iteration
without processing any later line — the overall result is the same for
every tail `post` — and every section and every key retrievable from the
document built out of the lines before the failing line is still
retrievable from the final document: no accumulated state is rolled back
or discarded. -/
theorem c2_error_stops_and_preserves (pre : List (List Char)) (l : List Char)
    (post : List (List Char)) (sti sterr : PState)
    (hpre : parseLinesStrict initPState pre = some sti)
    (hclean : sti.errorMessage = "")
    (hstep : parseLine sti l = .ok sterr)
    (herr : sterr.errorMessage ≠ "") :
    runParse (pre ++ l :: post) = .ok (finishParse sterr) ∧
    (∀ q, streamHasSection sti.mData q = true →
      streamHasSection (finishParse sterr).mData q = true) ∧
    (∀ sq kq, streamHasKey sti.mData sq kq = true →
      streamHasKey (finishParse sterr).mData sq kq = true) := by
  have hsd : SubDoc sti.mData (finishParse sterr).mData :=
    subDoc_trans (parseLine_subDoc sti l sterr hstep) (finishParse_subDoc sterr)
  refine ⟨?_, hsd.1, hsd.2⟩
  unfold runParse
  rw [parseLinesStrict_append pre initPState sti hpre (l :: post)]
  rw [parseLines, if_neg (by simp [hclean]), hstep]
  cases post with
  | nil => rfl
  | cons p ps =>
    have hstop : parseLines sterr (p :: ps) =
        .ok { sterr with errorMessage := "" } := by
      rw [parseLines, if_pos herr]
    show (parseLines sterr (p :: ps)).map finishParse = .ok (finishParse sterr)
    rw [hstop]
    exact congrArg Except.ok (finishParse_clear sterr)

/-- Witness for C2 on the concrete example: two clean lines (`[a]`, `k=1`),
then the unterminated quoted value `v="x`, then one further line that is
never processed; the pair `a`/`k` stays retrievable. -/
theorem c2_error_stops_and_preserves_witness :
    parseLinesStrict initPState c2exPre = some c2exSti ∧
    c2exSti.errorMessage = "" ∧
    parseLine c2exSti c2exLine = .ok c2exSterr ∧
    c2exSterr.errorMessage ≠ "" ∧
    runParse (c2exPre ++ c2exLine :: c2exPost) = .ok (finishParse c2exSterr) ∧
    streamHasKey c2exSti.mData ("a".data) ("k".data) = true ∧
    streamHasKey (finishParse c2exSterr).mData ("a".data) ("k".data) = true := by
  refine ⟨by decide, by decide, by decide, by decide, ?_, by decide, ?_⟩
  · exact (c2_error_stops_and_preserves c2exPre c2exLine c2exPost c2exSti
      c2exSterr (by decide) (by decide) (by decide) (by decide)).1
  · exact (c2_error_stops_and_preserves c2exPre c2exLine c2exPost c2exSti
      c2exSterr (by decide) (by decide) (by decide) (by decide)).2.2
      ("a".data) ("k".data) (by decide)

/-- A non-`\r`/`\n` head character of the amended segmentation is simply
accumulated. -/
theorem amendedSplitGo_other (line : List Char) (c : Char) (rest : List Char)
    (hr : c ≠ '\r') (hn : c ≠ '\n') :
    amendedSplitGo line (c :: rest) = amendedSplitGo (line ++ [c]) rest := by
  rw [amendedSplitGo.eq_def]
  split
  all_goals first | rfl | simp_all

/-- A non-`\r`/`\n`/`\\` head character of the read loop is simply
accumulated. -/
theorem readLoop_other (fuel : Nat) (c : Char) (rest line : List Char)
    (buffer : List (List Char)) (hr : c ≠ '\r') (hn : c ≠ '\n')
    (hb : c ≠ '\\') :
    readLoop (fuel + 1) (c :: rest) line buffer =
      readLoop fuel rest (line ++ [c]) buffer := by
  rw [readLoop.eq_def]
  split
  all_goals first | rfl | simp_all

/-- On escape-free input the read loop computes exactly the amended
segmentation, appended to the already flushed buffer. -/
theorem readLoop_amended (fuel : Nat) (s line : List Char)
    (buffer : List (List Char)) (hs : '\\' ∉ s) (hfuel : s.length < fuel) :
    readLoop fuel s line buffer = .ok (buffer ++ amendedSplitGo line s) := by
  induction fuel generalizing s line buffer with
  | zero => exact absurd hfuel (by omega)
  | succ fuel ih =>
    cases s with
    | nil =>
      show Except.ok (flushLine line buffer) = _
      unfold flushLine amendedSplitGo
      split <;> simp_all
    | cons c rest =>
      have hcb : c ≠ '\\' := by
        intro hcb
        subst hcb
        exact hs (List.mem_cons_self _ _)
      have hrest : '\\' ∉ rest := fun hm => hs (List.mem_cons_of_mem _ hm)
      have hlen : rest.length < fuel := by
        simp only [List.length_cons] at hfuel
        omega
      by_cases hr : c = '\r'
      · subst hr
        cases rest with
        | nil =>
          show Except.ok (flushLine line buffer) = _
          unfold flushLine amendedSplitGo
          split <;> simp_all
        | cons c2 rest2 =>
          have hrest2 : '\\' ∉ rest2 := fun hm =>
            hrest (List.mem_cons_of_mem _ hm)
          have hlen2 : rest2.length < fuel := by
            simp only [List.length_cons] at hlen
            omega
          show (if rest2.headD '\x00' = '\n' then
              readLoop fuel rest2 [] (buffer ++ [line ++ ['\n']])
            else readLoop fuel rest2 [] (buffer ++ [line ++ ['\n']])) = _
          rw [ite_self, ih rest2 [] _ hrest2 hlen2]
          show Except.ok ((buffer ++ [line ++ ['\n']]) ++ amendedSplitGo [] rest2) =
            Except.ok (buffer ++ ((line ++ ['\n']) :: amendedSplitGo [] rest2))
          rw [List.append_assoc]
          rfl
      · by_cases hn : c = '\n'
        · subst hn
          show readLoop fuel rest [] (buffer ++ [line ++ ['\n']]) = _
          rw [ih rest [] _ hrest hlen]
          show Except.ok ((buffer ++ [line ++ ['\n']]) ++ amendedSplitGo [] rest) =
            Except.ok (buffer ++ ((line ++ ['\n']) :: amendedSplitGo [] rest))
          rw [List.append_assoc]
          rfl
        · rw [readLoop_other fuel c rest line buffer hr hn hcb,
            amendedSplitGo_other line c rest hr hn,
            ih rest (line ++ [c]) buffer hrest hlen]

/-- Every line the amended segmentation produces consists of an LF-free body
followed by exactly one LF. -/
theorem amendedSplitGo_shape (n : Nat) :
    ∀ (s line : List Char), s.length ≤ n → '\n' ∉ line →
      ∀ l ∈ amendedSplitGo line s,
        ∃ body, l = body ++ ['\n'] ∧ '\n' ∉ body := by
  induction n with
  | zero =>
    intro s line hlen hline l hl
    cases s with
    | nil =>
      have hl2 : l ∈ (if line = [] then [] else [line ++ ['\n']]) := hl
      split at hl2
      · exact absurd hl2 (by simp)
      · rw [List.mem_singleton] at hl2
        exact ⟨line, hl2, hline⟩
    | cons c rest => simp at hlen
  | succ n ih =>
    intro s line hlen hline l hl
    cases s with
    | nil =>
      have hl2 : l ∈ (if line = [] then [] else [line ++ ['\n']]) := hl
      split at hl2
      · exact absurd hl2 (by simp)
      · rw [List.mem_singleton] at hl2
        exact ⟨line, hl2, hline⟩
    | cons c rest =>
      by_cases hr : c = '\r'
      · subst hr
        cases rest with
        | nil =>
          have hl2 : l ∈ (if line = [] then [] else [line ++ ['\n']]) := hl
          split at hl2
          · exact absurd hl2 (by simp)
          · rw [List.mem_singleton] at hl2
            exact ⟨line, hl2, hline⟩
        | cons c2 rest2 =>
          have hl2 : l ∈ (line ++ ['\n']) :: amendedSplitGo [] rest2 := hl
          rw [List.mem_cons] at hl2
          cases hl2 with
          | inl h1 => exact ⟨line, h1, hline⟩
          | inr h2 =>
            have hlen2 : rest2.length ≤ n := by
              simp only [List.length_cons] at hlen
              omega
            exact ih rest2 [] hlen2 (by simp) l h2
      · by_cases hn : c = '\n'
        · subst hn
          have hl2 : l ∈ (line ++ ['\n']) :: amendedSplitGo [] rest := hl
          rw [List.mem_cons] at hl2
          cases hl2 with
          | inl h1 => exact ⟨line, h1, hline⟩
          | inr h2 =>
            have hlen2 : rest.length ≤ n := by
              simp only [List.length_cons] at hlen
              omega
            exact ih rest [] hlen2 (by simp) l h2
        · rw [amendedSplitGo_other line c rest hr hn] at hl
          have hlen2 : rest.length ≤ n := by
            simp only [List.length_cons] at hlen
            omega
          have hline2 : '\n' ∉ line ++ [c] := by
            intro hm
            rw [List.mem_append, List.mem_singleton] at hm
            cases hm with
            | inl h1 => exact hline h1
            | inr h2 => exact hn h2.symm
          exact ih rest (line ++ [c]) hlen2 hline2 l hl

/-- C4 (corrected).  On every escape-free transcoded input the line
segmenter produces exactly the amended segmentation: a break at each LF; at
each CR the character directly following the CR is consumed together with
the CR (for CRLF that character is the LF, otherwise a data character is
lost — not the lone-CR behaviour the claim states); a trailing CR is
dropped.  The claim's final part survives: every produced logical line ends
with exactly one LF. -/
theorem c4_line_split_amended (s : List Char) (hs : '\\' ∉ s) :
    readContents s = .ok (amendedSplit s) ∧
    ∀ l ∈ amendedSplit s, ∃ body, l = body ++ ['\n'] ∧ '\n' ∉ body := by
  constructor
  · unfold readContents amendedSplit
    exact readLoop_amended (s.length + 1) s [] [] hs (by omega)
  · intro l hl
    exact amendedSplitGo_shape s.length s [] (le_refl _) (by simp) l hl

/-- Witness for C4 on the input `a<CR>bb<CRLF>c<LF>d`, which mixes all three
terminator styles and contains no backslash. -/
theorem c4_line_split_amended_witness :
    ('\\' ∉ (("a\rbb\r\nc\nd").data)) ∧
    readContents (("a\rbb\r\nc\nd").data) =
      .ok (amendedSplit (("a\rbb\r\nc\nd").data)) := by
  refine ⟨by decide, ?_⟩
  exact (c4_line_split_amended (("a\rbb\r\nc\nd").data) (by decide)).1

end HavINI
